import Mathlib

/-!
Recording codec and naming of `mmlt/exe`

A shallow embedding of `recording.go` (codec `mustWrite` / `mustRead` / `slice`,
naming `filename`) and of the record / playback adapters of `run.go`.

Modelling conventions.
* A Go `string` / `[]byte` is the list of its bytes (`Str`), a byte is a natural
  number below 256.  `[]string` is a list of such lists (a nil and an empty
  slice are not told apart).
* A Go `int` is an `Int` in the range -2^63 .. 2^63 - 1 (a 64-bit platform).  Where
  an operation can leave that range, its result is wrapped (`wrapInt`): the offsets
  `h.Cmd-1`, `h.Stdin-1`, `h.Stdout-sepLen`, ... of `mustRead`, whose operands come
  from the file.  The line counts `mustWrite` adds up cannot leave it, a string
  having fewer than 2^63 bytes.
* A Go `error` value is `Option Str`: `none` is `nil`, `some m` is an error whose
  `Error()` text is `m`.
* A panic is `Except.error` with the reason of the panic (`Fault`).
* Library code is modelled by what it does: `strings`, `strconv`, `fmt` (`%x`, `%s`),
  `hash/fnv`, `unicode/utf8` and `bufio.Scanner` are written out; `json.Unmarshal`,
  the tables of `unicode` above Latin-1, `filepath.Join` and the process run are
  parameters.  The reader behind the scanner delivers as many bytes as are asked
  for, as a `bytes.Buffer` and a regular file do.
-/

namespace Exe

/-! ## Bytes and strings -/

/-- A Go string: its bytes, each a natural number below 256. -/
abbrev Str := List Nat

/-- Bytes of an ASCII literal. -/
def str (s : String) : Str := s.data.map Char.toNat

/-- Line feed. -/
def LF : Nat := 10

/-- Carriage return. -/
def CR : Nat := 13

/-- Space. -/
def SP : Nat := 32

/-- Go `strings.Count(s, "\n")` for a one-byte pattern `c`. -/
def count (c : Nat) : Str → Nat
  | [] => 0
  | b :: s => if b = c then count c s + 1 else count c s

/-- Go `strings.Join(elems, sep)`. -/
def join (sp : Str) : List Str → Str
  | [] => []
  | [a] => a
  | a :: b :: r => a ++ sp ++ join sp (b :: r)

/-- Go `strings.Split(s, sep)` for a one-byte separator `c`: the pieces between
the occurrences of `c`; always at least one piece. -/
def split (c : Nat) : Str → List Str
  | [] => [[]]
  | b :: s =>
    if b = c then [] :: split c s
    else
      match split c s with
      | [] => [[b]]
      | p :: ps => (b :: p) :: ps

/-! ## Decimal and hexadecimal rendering -/

/-- Digits of `n` in base `b`, most significant first, pushed in front of `acc`;
`fuel` bounds the number of digits. -/
def digitsAux (b : Nat) : Nat → Nat → List Nat → List Nat
  | 0, _, acc => acc
  | fuel + 1, n, acc =>
    if n < b then n :: acc else digitsAux b fuel (n / b) (n % b :: acc)

/-- Digits of `n` in base `b`, most significant first (`[0]` for zero). -/
def digits (b n : Nat) : List Nat := digitsAux b (n + 1) n []

/-- ASCII of a digit value, lower case for ten and above. -/
def digitByte (d : Nat) : Nat := if d < 10 then 48 + d else 87 + d

/-- Go `strconv.Itoa` on a natural number. -/
def natToDec (n : Nat) : Str := (digits 10 n).map digitByte

/-- Go `strconv.Itoa` / the JSON encoding of an `int`. -/
def itoa (i : Int) : Str :=
  if i < 0 then 45 :: natToDec i.natAbs else natToDec i.natAbs

/-- Go `fmt.Sprintf("%x", n)` for an unsigned integer: lower-case hexadecimal,
no padding. -/
def hex (n : Nat) : Str := (digits 16 n).map digitByte

/-! ## The recording and its header -/

/-- Go `recording`: the data stored during record and used during playback. -/
structure recording where
  cmd : Str
  args : List Str
  stdin : Str
  stdout : Str
  stderr : Str
  err : Option Str
deriving DecidableEq, Repr

/-- Go `sep`, the section separator. -/
def sep : Str := str "\n----\n"

/-- Go `sepLen`. -/
def sepLen : Int := 2

/-- Go `RecordingHeader`: the line number offsets in the file. -/
structure RecordingHeader where
  Version : Int
  Cmd : Int
  Stdin : Int
  Stdout : Int
  Stderr : Int
  Err : Int
  Timing : Int
deriving DecidableEq, Repr

/-- One `"key":value` member of the JSON object, with the comma that precedes it. -/
def jsonField (first : Bool) (key : String) (v : Int) : Str :=
  (if first then [] else str ",") ++ str "\"" ++ str key ++ str "\":" ++ itoa v

/-- A member tagged `omitempty`: left out when the value is zero. -/
def jsonFieldOmitEmpty (key : String) (v : Int) : Str :=
  if v = 0 then [] else jsonField false key v

/-- Go `json.Marshal(&h)` for a `RecordingHeader`, following its struct tags. -/
def jsonMarshal (h : RecordingHeader) : Str :=
  str "\x7b" ++ jsonField true "version" h.Version ++ jsonField false "cmd" h.Cmd
    ++ jsonFieldOmitEmpty "stdin" h.Stdin ++ jsonFieldOmitEmpty "stdout" h.Stdout
    ++ jsonFieldOmitEmpty "stderr" h.Stderr ++ jsonFieldOmitEmpty "err" h.Err
    ++ jsonFieldOmitEmpty "timing" h.Timing ++ str "\x7d"

/-- The text of the error of a recording (`errStr` in `mustWrite`). -/
def errStr (rec : recording) : Str :=
  match rec.err with
  | none => []
  | some m => m

/-- The header `mustWrite` computes for a recording. -/
def header (rec : recording) : RecordingHeader :=
  let cmd : Int := 1 + sepLen
  let stdin : Int := cmd + sepLen
  let stdout : Int := stdin + count LF rec.stdin + sepLen
  let stderr : Int := stdout + count LF rec.stdout + sepLen
  let err : Int := stderr + count LF rec.stderr + sepLen
  let timing : Int := err + count LF (errStr rec) + sepLen
  { Version := 1, Cmd := cmd, Stdin := stdin, Stdout := stdout, Stderr := stderr,
    Err := err, Timing := timing }

/-- The command line `mustWrite` stores: cmd and args joined by single spaces. -/
def cmdLine (rec : recording) : Str := join [SP] (rec.cmd :: rec.args)

/-- The timing placeholder. -/
def timingText : Str := str "timing JSON TODO"

/-- Go `mustWrite`: the bytes written to `out` for recording `rec`. -/
def mustWrite (rec : recording) : Str :=
  jsonMarshal (header rec) ++ sep
    ++ cmdLine rec ++ sep
    ++ rec.stdin ++ sep
    ++ rec.stdout ++ sep
    ++ rec.stderr ++ sep
    ++ errStr rec ++ sep
    ++ timingText

/-! ## The line scanner (`bufio.Scanner` with the `bufio.ScanLines` split function)

`mustRead` keeps `scanner.Bytes()` of every line.  `Bytes` does no allocation: the
slice it returns points into the buffer of the scanner, and that buffer is written
again by later calls of `Scan`.  The scanner is therefore modelled with its buffer:
a token is a position in a buffer, and the text of a line is read from the buffers
as they are when scanning has ended. -/

/-- Reason of a panic. -/
inductive Fault where
  /-- `scanner.Err()` is not nil (`bufio.ErrTooLong`). -/
  | scan
  /-- `json.Unmarshal` returned an error. -/
  | json
  /-- Index out of range. -/
  | index
  /-- `os.Open` returned an error. -/
  | file
  /-- The step budget of the model ran out (not an outcome of the Go code). -/
  | fuel
deriving DecidableEq, Repr

deriving instance DecidableEq for Except

/-- Go `bufio.startBufSize`: size of the initial allocation for the buffer. -/
def startBufSize : Nat := 4096

/-- Go `bufio.MaxScanTokenSize`. -/
def MaxScanTokenSize : Nat := 65536

/-- Go `bytes.IndexByte`. -/
def indexByte (c : Nat) : Str → Option Nat
  | [] => none
  | b :: s => if b = c then some 0 else (indexByte c s).map (· + 1)

/-- Go `bufio.dropCR`: drop one terminal carriage return. -/
def dropCR (data : Str) : Str :=
  if data.getLast? = some CR then data.dropLast else data

/-- Go `bufio.ScanLines`: the advance and, when there is a token, its length (a
token starts at `data[0]`). -/
def ScanLines (data : Str) (atEOF : Bool) : Nat × Option Nat :=
  if atEOF ∧ data.length = 0 then (0, none)
  else
    match indexByte LF data with
    | some i => (i + 1, some (dropCR (data.take i)).length)
    | none => if atEOF then (data.length, some (dropCR data).length) else (0, none)

/-- A `[]byte` returned by `scanner.Bytes()`: `len` bytes at offset `off` of the
buffer number `gen` of the scanner. -/
structure Token where
  gen : Nat
  off : Nat
  len : Nat
deriving DecidableEq, Repr

/-- State of a `bufio.Scanner` reading from a reader that delivers as many bytes
as are asked for (`bytes.Buffer`, a regular file). -/
structure Scanner where
  /-- Bytes the reader has not delivered yet. -/
  r : Str
  /-- The buffer `s.buf`; its length is the capacity. -/
  buf : Str
  /-- Field `s.start`. -/
  start : Nat
  /-- Field `s.end`. -/
  stop : Nat
  /-- Whether `s.err` is `io.EOF`. -/
  eof : Bool
  /-- Buffers replaced when the buffer grew, oldest first. -/
  retired : List Str
deriving DecidableEq, Repr

/-- Go `bufio.NewScanner`. -/
def NewScanner (input : Str) : Scanner :=
  { r := input, buf := [], start := 0, stop := 0, eof := false, retired := [] }

/-- Shift the data to the beginning of the buffer:
`copy(s.buf, s.buf[s.start:s.end])`. -/
def Scanner.shift (s : Scanner) : Scanner :=
  { s with
    buf := (s.buf.drop s.start).take (s.stop - s.start) ++ s.buf.drop (s.stop - s.start)
    stop := s.stop - s.start
    start := 0 }

/-- Replace the full buffer by one of twice the size (at most `MaxScanTokenSize`). -/
def Scanner.grow (s : Scanner) : Scanner :=
  let newSize := if s.buf.length * 2 = 0 then startBufSize else s.buf.length * 2
  let newSize := min newSize MaxScanTokenSize
  let data := (s.buf.drop s.start).take (s.stop - s.start)
  { s with
    buf := data ++ List.replicate (newSize - data.length) 0
    stop := s.stop - s.start
    start := 0
    retired := s.retired ++ [s.buf] }

/-- Read into `s.buf[s.end:]`; at the end of the input set `io.EOF`. -/
def Scanner.read (s : Scanner) : Scanner :=
  if s.r.length = 0 then { s with eof := true }
  else
    let n := min (s.buf.length - s.stop) s.r.length
    { s with
      buf := s.buf.take s.stop ++ s.r.take n ++ s.buf.drop (s.stop + n)
      stop := s.stop + n
      r := s.r.drop n }

/-- Outcome of one call of `Scan`. -/
inductive ScanStep where
  /-- `Scan` returned true with this token. -/
  | token (s : Scanner) (t : Token)
  /-- `Scan` returned false at the end of the input. -/
  | done (s : Scanner)
  /-- `Scan` returned false with `ErrTooLong`. -/
  | tooLong
  /-- Budget exhausted. -/
  | fuel
deriving DecidableEq, Repr

/-- Go `(*Scanner).Scan`; `fuel` bounds the iterations of its loop. -/
def Scanner.Scan : Nat → Scanner → ScanStep
  | 0, _ => .fuel
  | fuel + 1, s =>
    let r :=
      if s.start < s.stop ∨ s.eof = true then
        ScanLines ((s.buf.drop s.start).take (s.stop - s.start)) s.eof
      else (0, none)
    match r with
    | (adv, some len) =>
      .token { s with start := s.start + adv } ⟨s.retired.length, s.start, len⟩
    | (_, none) =>
      if s.eof = true then .done { s with start := 0, stop := 0 }
      else
        let s :=
          if 0 < s.start ∧ (s.stop = s.buf.length ∨ s.buf.length / 2 < s.start) then s.shift
          else s
        if s.stop = s.buf.length then
          if MaxScanTokenSize ≤ s.buf.length then .tooLong
          else Scanner.Scan fuel s.grow.read
        else Scanner.Scan fuel s.read

/-- The loop of `mustRead` that calls `scanner.Scan()` and appends `scanner.Bytes()`
to `lines` until `Scan` returns false.  Every call of `Scan` gets two steps more
than there are unread bytes, and `scanLines` gives the loop two steps more than
there are input bytes; `scanLines_ne_fuel` shows that these budgets are never
exhausted. -/
def scanLoop : Nat → Scanner → List Token → Except Fault (Scanner × List Token)
  | 0, _, _ => .error .fuel
  | fuel + 1, s, toks =>
    match s.Scan (s.r.length + 2) with
    | .token s1 t => scanLoop fuel s1 (toks ++ [t])
    | .done s1 => .ok (s1, toks)
    | .tooLong => .error .scan
    | .fuel => .error .fuel

/-- The bytes a token denotes once scanning has ended. -/
def Token.bytes (bufs : List Str) (t : Token) : Str :=
  ((bufs.getD t.gen []).drop t.off).take t.len

/-- The value of `lines` in `mustRead` after the scanning loop. -/
def scanLines (input : Str) : Except Fault (List Str) :=
  match scanLoop (input.length + 2) (NewScanner input) [] with
  | .error e => .error e
  | .ok (s, toks) => .ok (toks.map (Token.bytes (s.retired ++ [s.buf])))

/-! ## Decoding -/

/-- Indexing `lines[i]`, which panics out of range. -/
def getLine (lines : List Str) (i : Int) : Except Fault Str :=
  if i < 0 then .error .index
  else
    match lines.get? i.toNat with
    | some l => .ok l
    | none => .error .index

/-- The loop of `slice`: `n` iterations are left, `i` is the loop variable and `b`
the buffer. -/
def sliceLoop (lines : List Str) (stop : Int) : Nat → Int → Str → Except Fault Str
  | 0, _, b => .ok b
  | n + 1, i, b =>
    match getLine lines i with
    | .error e => .error e
    | .ok l =>
      if i < stop - 1 then sliceLoop lines stop n (i + 1) (b ++ l ++ [LF])
      else
        match getLine lines (i + 1) with
        | .error e => .error e
        | .ok nx =>
          if nx.length = 0 then sliceLoop lines stop n (i + 1) (b ++ l ++ [LF])
          else sliceLoop lines stop n (i + 1) (b ++ l)

/-- Go `slice`. -/
def slice (lines : List Str) (start : Int) (stop : Int) : Except Fault Str :=
  sliceLoop lines stop (stop - start).toNat start []

/-- Go `int` arithmetic on a 64-bit platform: the value of an operation on two
`int`, wrapped into the range -2^63 .. 2^63 - 1. -/
def wrapInt (x : Int) : Int :=
  (x + 9223372036854775808) % 18446744073709551616 - 9223372036854775808

/-- Go `mustRead`.  `unmarshal` is `json.Unmarshal` into a `RecordingHeader`
(`none` when it returns an error).  The fields of a header are Go `int`; the
offsets `h.Cmd-1`, `h.Stdin-1`, `h.Stdout-sepLen`, ... are computed in `int`
arithmetic, which wraps.  Inside `slice` nothing wraps: in the body of its loop
`begin <= i < end`, so `end-1` and `i+1` stay in the range of `int`. -/
def mustRead (unmarshal : Str → Option RecordingHeader) (input : Str) :
    Except Fault recording :=
  match scanLines input with
  | .error e => .error e
  | .ok lines =>
    match getLine lines 0 with
    | .error e => .error e
    | .ok l0 =>
      match unmarshal l0 with
      | none => .error .json
      | some h =>
        match getLine lines (wrapInt (h.Cmd - 1)) with
        | .error e => .error e
        | .ok cl =>
          match split SP cl with
          | [] => .error .index
          | c0 :: cs =>
            match slice lines (wrapInt (h.Stdin - 1)) (wrapInt (h.Stdout - sepLen)) with
            | .error e => .error e
            | .ok stdin =>
              match slice lines (wrapInt (h.Stdout - 1)) (wrapInt (h.Stderr - sepLen)) with
              | .error e => .error e
              | .ok stdout =>
                match slice lines (wrapInt (h.Stderr - 1)) (wrapInt (h.Err - sepLen)) with
                | .error e => .error e
                | .ok stderr =>
                  match slice lines (wrapInt (h.Err - 1)) (wrapInt (h.Timing - sepLen)) with
                  | .error e => .error e
                  | .ok es =>
                    .ok { cmd := c0, args := cs, stdin := stdin, stdout := stdout,
                          stderr := stderr, err := if es = [] then none else some es }

/-! ## A reference header decoder

`json.Unmarshal` is library code; `mustRead` takes it as a parameter.  The decoder
below stands for it where a concrete one is needed: it accepts the object with the
keys in the order of the struct, the `omitempty` members being optional, and
decimal values without sign, and returns on such a line what `json.Unmarshal`
returns as long as the values are below 2^63.  It is not `json.Unmarshal` on other
lines (keys in another order, signed values, white space, further keys), which it
rejects; the general theorems on `mustRead` hold for every `unmarshal`. -/

/-- The rest of `s` after the prefix `p`, when `s` starts with `p`. -/
def stripPrefix : Str → Str → Option Str
  | [], s => some s
  | _ :: _, [] => none
  | a :: p, b :: s => if a = b then stripPrefix p s else none

/-- Whether the byte is an ASCII decimal digit. -/
def isDecDigit (b : Nat) : Bool := decide (48 ≤ b) && decide (b ≤ 57)

/-- The leading decimal digits of `s` and what follows them. -/
def spanDigits : Str → Str × Str
  | [] => ([], [])
  | b :: s =>
    if isDecDigit b then ((spanDigits s).1.cons b, (spanDigits s).2) else ([], b :: s)

/-- Value of a string of decimal digits. -/
def decValue (ds : Str) : Nat := ds.foldl (fun a d => 10 * a + (d - 48)) 0

/-- A JSON number that is a natural number in its shortest form, and the rest. -/
def parseNat (s : Str) : Option (Nat × Str) :=
  let ds := (spanDigits s).1
  if ds = [] then none
  else if natToDec (decValue ds) = ds then some (decValue ds, (spanDigits s).2) else none

/-- A member `"key":value` that must be present. -/
def parseField (first : Bool) (key : String) (s : Str) : Option (Int × Str) :=
  match stripPrefix ((if first then [] else str ",") ++ str "\"" ++ str key ++ str "\":") s with
  | none => none
  | some s1 =>
    match parseNat s1 with
    | none => none
    | some (v, s2) => some ((v : Int), s2)

/-- A member tagged `omitempty`: zero when it is absent. -/
def parseFieldOmitEmpty (key : String) (s : Str) : Option (Int × Str) :=
  match stripPrefix (str "," ++ str "\"" ++ str key ++ str "\":") s with
  | none => some (0, s)
  | some s1 =>
    match parseNat s1 with
    | none => none
    | some (v, s2) => some ((v : Int), s2)

/-- The reference decoder of a header line. -/
def refUnmarshal (line : Str) : Option RecordingHeader :=
  match stripPrefix (str "\x7b") line with
  | none => none
  | some s0 =>
    match parseField true "version" s0 with
    | none => none
    | some (version, s1) =>
      match parseField false "cmd" s1 with
      | none => none
      | some (cmd, s2) =>
        match parseFieldOmitEmpty "stdin" s2 with
        | none => none
        | some (stdin, s3) =>
          match parseFieldOmitEmpty "stdout" s3 with
          | none => none
          | some (stdout, s4) =>
            match parseFieldOmitEmpty "stderr" s4 with
            | none => none
            | some (stderr, s5) =>
              match parseFieldOmitEmpty "err" s5 with
              | none => none
              | some (err, s6) =>
                match parseFieldOmitEmpty "timing" s6 with
                | none => none
                | some (timing, s7) =>
                  if s7 = str "\x7d" then
                    some { Version := version, Cmd := cmd, Stdin := stdin, Stdout := stdout,
                           Stderr := stderr, Err := err, Timing := timing }
                  else none

/-! ## Naming -/

/-- Go `utf8.RuneError`.  A rune (a Unicode code point) is a natural number. -/
def RuneError : Nat := 0xFFFD

/-- Whether the byte is a UTF-8 continuation byte. -/
def isCont (b : Nat) : Bool := decide (0x80 ≤ b) && decide (b ≤ 0xBF)

/-- Go `utf8.DecodeRuneInString` on a non-empty string: the rune and its width;
an encoding that is invalid or too short yields `(RuneError, 1)`. -/
def decodeRune : Str → Nat × Nat
  | [] => (RuneError, 0)
  | b0 :: rest =>
    if b0 < 0x80 then (b0, 1)
    else if 0xC2 ≤ b0 ∧ b0 ≤ 0xDF then
      match rest with
      | b1 :: _ => if isCont b1 then (b0 % 32 * 64 + b1 % 64, 2) else (RuneError, 1)
      | _ => (RuneError, 1)
    else if 0xE0 ≤ b0 ∧ b0 ≤ 0xEF then
      match rest with
      | b1 :: b2 :: _ =>
        if (if b0 = 0xE0 then 0xA0 else 0x80) ≤ b1 ∧ b1 ≤ (if b0 = 0xED then 0x9F else 0xBF)
            ∧ isCont b2 = true then
          (b0 % 16 * 4096 + b1 % 64 * 64 + b2 % 64, 3)
        else (RuneError, 1)
      | _ => (RuneError, 1)
    else if 0xF0 ≤ b0 ∧ b0 ≤ 0xF4 then
      match rest with
      | b1 :: b2 :: b3 :: _ =>
        if (if b0 = 0xF0 then 0x90 else 0x80) ≤ b1 ∧ b1 ≤ (if b0 = 0xF4 then 0x8F else 0xBF)
            ∧ isCont b2 = true ∧ isCont b3 = true then
          (b0 % 8 * 262144 + b1 % 64 * 4096 + b2 % 64 * 64 + b3 % 64, 4)
        else (RuneError, 1)
      | _ => (RuneError, 1)
    else (RuneError, 1)

/-- The runes a `for range` loop over a string visits; `fuel` bounds their number. -/
def runesAux : Nat → Str → List Nat
  | 0, _ => []
  | _, [] => []
  | fuel + 1, b :: s =>
    (decodeRune (b :: s)).1 :: runesAux fuel (s.drop ((decodeRune (b :: s)).2 - 1))

/-- The runes a `for range` loop over a string visits. -/
def runes (s : Str) : List Nat := runesAux s.length s

/-- Go `utf8.AppendRune`: the UTF-8 encoding of a rune. -/
def encodeRune (r : Nat) : Str :=
  if r ≤ 0x7F then [r]
  else if r ≤ 0x7FF then [0xC0 + r / 64, 0x80 + r % 64]
  else if 0x10FFFF < r ∨ (0xD800 ≤ r ∧ r ≤ 0xDFFF) then [0xEF, 0xBF, 0xBD]
  else if r ≤ 0xFFFF then [0xE0 + r / 4096, 0x80 + r / 64 % 64, 0x80 + r % 64]
  else [0xF0 + r / 262144, 0x80 + r / 4096 % 64, 0x80 + r / 64 % 64, 0x80 + r % 64]

/-- The Unicode range tables of Go package `unicode` above Latin-1 (U+00FF). -/
structure UnicodeTables where
  /-- Membership of category L above Latin-1. -/
  letter : Nat → Bool
  /-- Membership of category Nd above Latin-1. -/
  digit : Nat → Bool

/-- Go `unicode.IsLetter`: the Latin-1 property table below U+0100, the range
tables above. -/
def IsLetter (t : UnicodeTables) (r : Nat) : Bool :=
  if r ≤ 0xFF then
    decide ((0x41 ≤ r ∧ r ≤ 0x5A) ∨ (0x61 ≤ r ∧ r ≤ 0x7A) ∨ r = 0xAA ∨ r = 0xB5 ∨ r = 0xBA
      ∨ (0xC0 ≤ r ∧ r ≤ 0xD6) ∨ (0xD8 ≤ r ∧ r ≤ 0xF6) ∨ 0xF8 ≤ r)
  else t.letter r

/-- Go `unicode.IsDigit`. -/
def IsDigit (t : UnicodeTables) (r : Nat) : Bool :=
  if r ≤ 0xFF then decide (0x30 ≤ r ∧ r ≤ 0x39) else t.digit r

/-- Tables with nothing above Latin-1; used for evaluations on ASCII inputs, where
the tables are not consulted. -/
def latin1Tables : UnicodeTables := { letter := fun _ => false, digit := fun _ => false }

/-- Go `fnv.New32a`: the offset basis. -/
def fnvNew32a : Nat := 2166136261

/-- Go `(*sum32a).Write`: for every byte, xor then multiply by the prime,
in 32-bit arithmetic. -/
def fnvWrite (h : Nat) : Str → Nat
  | [] => h
  | c :: s => fnvWrite ((h ^^^ c) * 16777619 % 2 ^ 32) s

/-- Go `maxArgsLen` in `filename`. -/
def maxArgsLen : Nat := 20

/-- The loop of `filename` over the runes of the joined args: `i` is the counter,
`a` the builder. -/
def slugLoop (t : UnicodeTables) : List Nat → Nat → Str → Str
  | [], _, a => a
  | v :: vs, i, a =>
    if IsLetter t v || IsDigit t v then
      if i + 1 > maxArgsLen then a ++ encodeRune v
      else slugLoop t vs (i + 1) (a ++ encodeRune v)
    else slugLoop t vs i a

/-- The args part of the name. -/
def slug (t : UnicodeTables) (args : List Str) : Str :=
  slugLoop t (runes (join [] args)) 0 []

/-- The hash part of the name: the state after writing stdin, cmd and every arg. -/
def nameHash (stdin cmd : Str) (args : List Str) : Nat :=
  args.foldl fnvWrite (fnvWrite (fnvWrite fnvNew32a stdin) cmd)

/-- Go `filename`. -/
def filename (t : UnicodeTables) (stdin cmd : Str) (args : List Str) : Str :=
  cmd ++ str "-" ++ slug t args ++ str "-" ++ hex (nameHash stdin cmd args)

/-! ## Record and playback -/

/-- Go `Opt`: the exec options. -/
structure Opt where
  Dir : Str
  Env : List Str
deriving DecidableEq, Repr

/-- The files of the recording directories: path to content. -/
abbrev Files := Str → Option Str

/-- What a `Runner` returns: stdout, stderr and err. -/
structure Result where
  stdout : Str
  stderr : Str
  err : Option Str
deriving DecidableEq, Repr

/-- The parts of the environment the adapters use. -/
structure Env where
  /-- Go `filepath.Join` of a directory and a name. -/
  pathJoin : Str → Str → Str
  /-- Go `(*Run).Run`: the live run of the process. -/
  run : Option Opt → Str → Str → List Str → Result
  /-- Go `json.Unmarshal` into a `RecordingHeader`. -/
  unmarshal : Str → Option RecordingHeader
  /-- The tables of package `unicode`. -/
  tables : UnicodeTables

/-- Go `(*RunRecord).mustRecord`: `os.Create` then `mustWrite`; the new files.
`os.Create` is taken to succeed: the directory exists and can be written, and the
name has no path separator.  The panic on its error is not modelled. -/
def RunRecord.mustRecord (e : Env) (Dir : Str) (fs : Files) (stdout stderr : Str)
    (inerr : Option Str) (_options : Option Opt) (stdin cmd : Str) (args : List Str) : Files :=
  let p := e.pathJoin Dir (filename e.tables stdin cmd args)
  Function.update fs p
    (some (mustWrite { cmd := cmd, args := args, stdin := stdin, stdout := stdout,
                       stderr := stderr, err := inerr }))

/-- Go `(*RunRecord).Run`: the new files and the returned values. -/
def RunRecord.Run (e : Env) (Dir : Str) (fs : Files) (options : Option Opt)
    (stdin cmd : Str) (args : List Str) : Files × Result :=
  let res := e.run options stdin cmd args
  (RunRecord.mustRecord e Dir fs res.stdout res.stderr res.err options stdin cmd args, res)

/-- Go `(*RunPlayback).Run`. -/
def RunPlayback.Run (e : Env) (Dir : Str) (fs : Files) (_options : Option Opt)
    (stdin cmd : Str) (args : List Str) : Except Fault Result :=
  let p := e.pathJoin Dir (filename e.tables stdin cmd args)
  match fs p with
  | none => .error .file
  | some f =>
    match mustRead e.unmarshal f with
    | .error err => .error err
    | .ok rec => .ok { stdout := rec.stdout, stderr := rec.stderr, err := rec.err }

/-! ## Notions used to state the properties -/

/-- The separator line. -/
def dashes : Str := str "----"

/-- The lines of a file made of a header line, a command line and four texts. -/
def layout (J C : Str) (I O E M : List Str) : List Str :=
  [J, dashes, C, dashes] ++ I ++ [dashes] ++ O ++ [dashes] ++ E ++ [dashes] ++ M
    ++ [dashes, timingText]

/-- The first line of a text: the bytes before its first line feed. -/
def firstLine : Str → Str
  | [] => []
  | b :: s => if b = LF then [] else b :: firstLine s

/-- The 32-bit FNV-1a hash of a byte sequence: offset basis 2166136261, prime
16777619, arithmetic modulo 2^32. -/
def fnv1a32 (bytes : Str) : Nat :=
  bytes.foldl (fun h c => (h ^^^ c) * 16777619 % 4294967296) 2166136261

/-- The part of `s` after its last occurrence of the byte `c` (all of `s` when `c`
does not occur). -/
def afterLast (c : Nat) (s : Str) : Str := ((split c s).getLast?).getD []

/-- Whether the byte is a hexadecimal digit in lower case. -/
def isHexDigit (b : Nat) : Bool :=
  (decide (48 ≤ b) && decide (b ≤ 57)) || (decide (97 ≤ b) && decide (b ≤ 102))

/-- Whether `slice lines start stop` stays inside `n` lines: the range is empty, or
it starts at a line and the line after the range exists. -/
def sliceInRange (n : Nat) (start stop : Int) : Prop :=
  stop ≤ start ∨ (0 ≤ start ∧ stop < n)

instance (n : Nat) (start stop : Int) : Decidable (sliceInRange n start stop) := by
  unfold sliceInRange
  infer_instance

/-- Whether `mustRead` finds every line it indexes with header `h` among `n` lines:
line `Cmd` exists and the four section ranges stay inside the lines.  The indices
are the values of the Go expressions `h.Cmd-1`, `h.Stdin-1`, `h.Stdout-sepLen`, ...,
with the wrap of `int`. -/
def headerInRange (n : Nat) (h : RecordingHeader) : Prop :=
  0 ≤ wrapInt (h.Cmd - 1) ∧ wrapInt (h.Cmd - 1) < n
    ∧ sliceInRange n (wrapInt (h.Stdin - 1)) (wrapInt (h.Stdout - sepLen))
    ∧ sliceInRange n (wrapInt (h.Stdout - 1)) (wrapInt (h.Stderr - sepLen))
    ∧ sliceInRange n (wrapInt (h.Stderr - 1)) (wrapInt (h.Err - sepLen))
    ∧ sliceInRange n (wrapInt (h.Err - 1)) (wrapInt (h.Timing - sepLen))

instance (n : Nat) (h : RecordingHeader) : Decidable (headerInRange n h) := by
  unfold headerInRange
  infer_instance

/-- An environment for evaluations: `filepath.Join` of a clean directory path and a
name without separator, a process with a fixed result, the reference header
decoder and the Latin-1 tables. -/
def evalEnv (live : Result) : Env :=
  { pathJoin := fun d n => d ++ str "/" ++ n
    run := fun _ _ _ _ => live
    unmarshal := refUnmarshal
    tables := latin1Tables }

/-- No recording yet. -/
def noFiles : Files := fun _ => none

/-- The lines `bufio.ScanLines` cuts a text into when every line is delivered
intact: the pieces between line feeds, each without one terminal carriage return,
and no line for an empty last piece. -/
def textLines (data : Str) : List Str :=
  (if (split LF data).getLast? = some [] then (split LF data).dropLast
    else split LF data).map dropCR

/-- The text with one carriage return removed at the end of each of its lines. -/
def dropLineCR (s : Str) : Str := join [LF] ((split LF s).map dropCR)

/-- The recording `mustRead` builds from a command line and the lines of the four
texts. -/
def recordingOfLines (C : Str) (I O E M : List Str) : recording :=
  { cmd := (split SP C).headD []
    args := (split SP C).tail
    stdin := join [LF] I
    stdout := join [LF] O
    stderr := join [LF] E
    err := if join [LF] M = [] then none else some (join [LF] M) }

/-- Whether a string does not start with a decimal digit. -/
def noDigitAhead (s : Str) : Prop := ∀ b r, s = b :: r → isDecDigit b = false

instance (s : Str) : Decidable (noDigitAhead s) :=
  match s with
  | [] => isTrue (fun _ _ h => by cases h)
  | b :: r =>
    if hb : isDecDigit b = false then
      isTrue (fun b2 r2 h => by cases h; exact hb)
    else isFalse (fun h => hb (h b r rfl))

/-- The text that opens the member `key` when it is not the first one. -/
def memberOpen (key : String) : Str := str "," ++ str "\"" ++ str key ++ str "\":"

/-- A rest of the header line before which the members `ks` can be told absent. -/
def restOk (ks : List String) (s : Str) : Prop :=
  noDigitAhead s ∧ ∀ k ∈ ks, stripPrefix (memberOpen k) s = none

instance (ks : List String) (s : Str) : Decidable (restOk ks s) := by
  unfold restOk
  infer_instance

/-- The indices of a scanner are in order and inside its buffer. -/
def Scanner.wf (s : Scanner) : Prop := s.start ≤ s.stop ∧ s.stop ≤ s.buf.length

instance (s : Scanner) : Decidable s.wf := by
  unfold Scanner.wf
  infer_instance

/-- The number of input bytes a scanner has not handed out yet. -/
def Scanner.rest (s : Scanner) : Nat := s.r.length + (s.stop - s.start)

/-- The buffer of the scanner when scanning has ended, for an input that fits the
first buffer `B` and has `n` bytes: when the last line `last` starts beyond the
middle of the buffer, it has been copied to the front. -/
def finalBuf (B : Str) (n : Nat) (last : Str) : Str :=
  if last ≠ [] ∧ B.length / 2 < n - last.length then last ++ B.drop last.length else B

/-- The text without every carriage return that stands immediately before a line
feed or at the end of the text. -/
def dropCRBeforeLF : Str → Str
  | [] => []
  | b :: s =>
    if b = CR ∧ (s = [] ∨ s.head? = some LF) then dropCRBeforeLF s else b :: dropCRBeforeLF s

/-- The loop of `slice` without the clause on the line after the range: a line
feed is written only between two lines of the range. -/
def sliceLoopPlain (lines : List Str) (stop : Int) : Nat → Int → Str → Except Fault Str
  | 0, _, b => .ok b
  | n + 1, i, b =>
    match getLine lines i with
    | .error e => .error e
    | .ok l =>
      if i < stop - 1 then sliceLoopPlain lines stop n (i + 1) (b ++ l ++ [LF])
      else sliceLoopPlain lines stop n (i + 1) (b ++ l)

/-- `slice` without the clause on the line after the range. -/
def slicePlain (lines : List Str) (start : Int) (stop : Int) : Except Fault Str :=
  sliceLoopPlain lines stop (stop - start).toNat start []

/-- `mustRead` with `slicePlain` in the place of `slice`. -/
def mustReadPlain (unmarshal : Str → Option RecordingHeader) (input : Str) :
    Except Fault recording :=
  match scanLines input with
  | .error e => .error e
  | .ok lines =>
    match getLine lines 0 with
    | .error e => .error e
    | .ok l0 =>
      match unmarshal l0 with
      | none => .error .json
      | some h =>
        match getLine lines (wrapInt (h.Cmd - 1)) with
        | .error e => .error e
        | .ok cl =>
          match split SP cl with
          | [] => .error .index
          | c0 :: cs =>
            match slicePlain lines (wrapInt (h.Stdin - 1)) (wrapInt (h.Stdout - sepLen)) with
            | .error e => .error e
            | .ok stdin =>
              match slicePlain lines (wrapInt (h.Stdout - 1)) (wrapInt (h.Stderr - sepLen)) with
              | .error e => .error e
              | .ok stdout =>
                match slicePlain lines (wrapInt (h.Stderr - 1)) (wrapInt (h.Err - sepLen)) with
                | .error e => .error e
                | .ok stderr =>
                  match slicePlain lines (wrapInt (h.Err - 1)) (wrapInt (h.Timing - sepLen)) with
                  | .error e => .error e
                  | .ok es =>
                    .ok { cmd := c0, args := cs, stdin := stdin, stdout := stdout,
                          stderr := stderr, err := if es = [] then none else some es }

/-- A text that reads as a header line: version 1, cmd on line 1, stdin on line 12,
stdout on line 14, the other sections on line 9. -/
def headerLikeLine : Str :=
  str "\x7b\"version\":1,\"cmd\":1,\"stdin\":12,\"stdout\":14,\"stderr\":9,\"err\":9,\"timing\":9\x7d"

/-- A recording of a command `c` with 3991 bytes `a` of stdout and an error whose
message is a header-like line followed by the line `x`. -/
def recordingWithHeaderLikeMessage : recording :=
  { cmd := str "c"
    args := []
    stdin := []
    stdout := List.replicate 3991 97
    stderr := []
    err := some (headerLikeLine ++ str "\nx\n") }

/-! ## Facts about the string functions -/

theorem split_ne_nil (c : Nat) (s : Str) : split c s ≠ [] := by
  induction s with
  | nil => simp [split]
  | cons b s ih =>
    unfold split
    split_ifs
    · simp
    · cases h : split c s <;> simp

theorem split_append_cons (c : Nat) (a b : Str) :
    split c (a ++ c :: b) = split c a ++ split c b := by
  induction a with
  | nil => simp [split]
  | cons x a ih =>
    by_cases hx : x = c
    · simp [split, hx, ih]
    · obtain ⟨p, ps, hp⟩ := List.exists_cons_of_ne_nil (split_ne_nil c a)
      simp [split, hx, ih, hp]

theorem split_of_not_mem (c : Nat) (s : Str) (h : c ∉ s) : split c s = [s] := by
  induction s with
  | nil => simp [split]
  | cons b s ih =>
    simp only [List.mem_cons, not_or] at h
    have hb : b ≠ c := fun e => h.1 e.symm
    simp [split, hb, ih h.2]

theorem length_split (c : Nat) (s : Str) : (split c s).length = count c s + 1 := by
  induction s with
  | nil => simp [split, count]
  | cons b s ih =>
    by_cases hx : b = c
    · simp [split, count, hx, ih]
    · obtain ⟨p, ps, hp⟩ := List.exists_cons_of_ne_nil (split_ne_nil c s)
      simp [split, count, hx, hp] at ih ⊢
      omega

theorem not_mem_join (c : Nat) (sp : Str) (l : List Str) (hsp : c ∉ sp)
    (h : ∀ a ∈ l, c ∉ a) : c ∉ join sp l := by
  induction l with
  | nil => simp [join]
  | cons a l ih =>
    cases l with
    | nil => simpa [join] using h a (by simp)
    | cons b r =>
      have h1 := h a (by simp)
      have h2 := ih (fun x hx => h x (List.mem_cons_of_mem _ hx))
      simp only [join, List.mem_append, not_or]
      exact ⟨⟨h1, hsp⟩, h2⟩

/-! ## Facts about the rendering of numbers -/

theorem digitsAux_lt (b : Nat) (hb : 0 < b) (fuel n : Nat) (acc : List Nat)
    (hacc : ∀ d ∈ acc, d < b) : ∀ d ∈ digitsAux b fuel n acc, d < b := by
  induction fuel generalizing n acc with
  | zero => simpa [digitsAux] using hacc
  | succ f ih =>
    unfold digitsAux
    split_ifs with hn
    · intro d hd
      rcases List.mem_cons.1 hd with rfl | hd
      · exact hn
      · exact hacc d hd
    · apply ih
      intro d hd
      rcases List.mem_cons.1 hd with rfl | hd
      · exact Nat.mod_lt _ hb
      · exact hacc d hd

theorem digits_lt (b : Nat) (hb : 0 < b) (n : Nat) : ∀ d ∈ digits b n, d < b :=
  digitsAux_lt b hb (n + 1) n [] (by simp)

theorem natToDec_isDigit (n : Nat) : ∀ c ∈ natToDec n, 48 ≤ c ∧ c ≤ 57 := by
  intro c hc
  simp only [natToDec, List.mem_map] at hc
  obtain ⟨d, hd, rfl⟩ := hc
  have := digits_lt 10 (by norm_num) n d hd
  rw [digitByte, if_pos this]
  omega

theorem itoa_ge (i : Int) : ∀ b ∈ itoa i, 34 ≤ b := by
  intro b h
  unfold itoa at h
  split_ifs at h
  · rcases List.mem_cons.1 h with h | h
    · omega
    · have := natToDec_isDigit _ _ h
      omega
  · have := natToDec_isDigit _ _ h
    omega

theorem jsonField_ge (first : Bool) (key : String) (hk : ∀ b ∈ str key, 34 ≤ b) (v : Int) :
    ∀ b ∈ jsonField first key v, 34 ≤ b := by
  intro b hb
  simp only [jsonField, List.mem_append] at hb
  rcases hb with (((hb | hb) | hb) | hb) | hb
  · cases first
    · have : b = 44 := by simpa [str] using hb
      omega
    · simp at hb
  · have : b = 34 := by simpa [str] using hb
    omega
  · exact hk b hb
  · have : b = 34 ∨ b = 58 := by simpa [str] using hb
    omega
  · exact itoa_ge v b hb

theorem jsonFieldOmitEmpty_ge (key : String) (hk : ∀ b ∈ str key, 34 ≤ b) (v : Int) :
    ∀ b ∈ jsonFieldOmitEmpty key v, 34 ≤ b := by
  unfold jsonFieldOmitEmpty
  split_ifs
  · simp
  · exact jsonField_ge false key hk v

/-- Every byte of the header line is a printable character from `"` on. -/
theorem jsonMarshal_ge (h : RecordingHeader) : ∀ b ∈ jsonMarshal h, 34 ≤ b := by
  intro b hb
  simp only [jsonMarshal, List.mem_append] at hb
  rcases hb with ((((((((hb | hb) | hb) | hb) | hb) | hb) | hb) | hb) | hb)
  · have : b = 123 := by simpa [str] using hb
    omega
  · exact jsonField_ge true "version" (by decide) _ b hb
  · exact jsonField_ge false "cmd" (by decide) _ b hb
  · exact jsonFieldOmitEmpty_ge "stdin" (by decide) _ b hb
  · exact jsonFieldOmitEmpty_ge "stdout" (by decide) _ b hb
  · exact jsonFieldOmitEmpty_ge "stderr" (by decide) _ b hb
  · exact jsonFieldOmitEmpty_ge "err" (by decide) _ b hb
  · exact jsonFieldOmitEmpty_ge "timing" (by decide) _ b hb
  · have : b = 125 := by simpa [str] using hb
    omega

theorem LF_not_mem_jsonMarshal (h : RecordingHeader) : LF ∉ jsonMarshal h := fun hm => by
  have := jsonMarshal_ge h LF hm
  simp [LF] at this

theorem CR_not_mem_jsonMarshal (h : RecordingHeader) : CR ∉ jsonMarshal h := fun hm => by
  have := jsonMarshal_ge h CR hm
  simp [CR] at this

/-! ## The lines of a written recording -/

theorem sep_eq : sep = LF :: (dashes ++ [LF]) := by decide

theorem split_sep (a b : Str) :
    split LF (a ++ sep ++ b) = split LF a ++ [dashes] ++ split LF b := by
  have hd : LF ∉ dashes := by decide
  have : a ++ sep ++ b = a ++ LF :: (dashes ++ LF :: b) := by simp [sep_eq]
  rw [this, split_append_cons, split_append_cons, split_of_not_mem LF dashes hd]
  simp

theorem split_mustWrite (rec : recording) (hc : LF ∉ cmdLine rec) :
    split LF (mustWrite rec) =
      layout (jsonMarshal (header rec)) (cmdLine rec) (split LF rec.stdin)
        (split LF rec.stdout) (split LF rec.stderr) (split LF (errStr rec)) := by
  have ht : LF ∉ timingText := by decide
  have e : mustWrite rec = jsonMarshal (header rec) ++ sep ++ (cmdLine rec ++ sep ++
      (rec.stdin ++ sep ++ (rec.stdout ++ sep ++ (rec.stderr ++ sep ++
      (errStr rec ++ sep ++ timingText))))) := by
    simp [mustWrite, List.append_assoc]
  rw [e]
  simp only [split_sep, split_of_not_mem LF _ (LF_not_mem_jsonMarshal _),
    split_of_not_mem LF _ hc, split_of_not_mem LF _ ht, layout]
  simp

theorem LF_not_mem_cmdLine (rec : recording) (hcmd : LF ∉ rec.cmd)
    (hargs : ∀ a ∈ rec.args, LF ∉ a) : LF ∉ cmdLine rec := by
  apply not_mem_join
  · decide
  · intro a ha
    rcases List.mem_cons.1 ha with rfl | ha
    · exact hcmd
    · exact hargs a ha


theorem split_eq_firstLine_cons (s : Str) : ∃ r, split LF s = firstLine s :: r ∧
    r.length = count LF s := by
  induction s with
  | nil => exact ⟨[], by simp [split, firstLine, count]⟩
  | cons b s ih =>
    obtain ⟨r, hr, hl⟩ := ih
    by_cases hb : b = LF
    · exact ⟨firstLine s :: r, by simp [split, firstLine, hb, hr, count, hl]⟩
    · exact ⟨r, by simp [split, firstLine, hb, hr, count, hl]⟩

/-! ## Header offsets (C3) -/

theorem getLine_at (pre : List Str) (x : Str) (post : List Str) (i : Int)
    (hi : i = pre.length) : getLine (pre ++ x :: post) i = .ok x := by
  subst hi
  have h : (pre ++ x :: post).get? ((pre.length : Int).toNat) = some x := by
    rw [Int.toNat_ofNat, List.get?_eq_getElem?, List.getElem?_append_right (le_refl _)]
    simp
  unfold getLine
  rw [if_neg (by omega), h]

theorem getLine_layout (J C i o e m : Str) (I O E M : List Str) :
    getLine (layout J C (i :: I) (o :: O) (e :: E) (m :: M)) 2 = .ok C
    ∧ getLine (layout J C (i :: I) (o :: O) (e :: E) (m :: M)) 4 = .ok i
    ∧ getLine (layout J C (i :: I) (o :: O) (e :: E) (m :: M)) (6 + I.length) = .ok o
    ∧ getLine (layout J C (i :: I) (o :: O) (e :: E) (m :: M))
        (8 + I.length + O.length) = .ok e
    ∧ getLine (layout J C (i :: I) (o :: O) (e :: E) (m :: M))
        (10 + I.length + O.length + E.length) = .ok m
    ∧ getLine (layout J C (i :: I) (o :: O) (e :: E) (m :: M))
        (12 + I.length + O.length + E.length + M.length) = .ok timingText
    ∧ (layout J C (i :: I) (o :: O) (e :: E) (m :: M)).getLast? = some timingText
    ∧ (layout J C (i :: I) (o :: O) (e :: E) (m :: M)).length
        = 13 + I.length + O.length + E.length + M.length := by
  refine ⟨?_, ?_, ?_, ?_, ?_, ?_, ?_, ?_⟩
  · have h : layout J C (i :: I) (o :: O) (e :: E) (m :: M) = [J, dashes] ++ C ::
        ([dashes] ++ i :: I ++ [dashes] ++ o :: O ++ [dashes] ++ e :: E ++ [dashes] ++ m :: M
          ++ [dashes, timingText]) := by simp [layout]
    rw [h]; exact getLine_at _ _ _ _ (by simp)
  · have h : layout J C (i :: I) (o :: O) (e :: E) (m :: M) = [J, dashes, C, dashes] ++ i ::
        (I ++ [dashes] ++ o :: O ++ [dashes] ++ e :: E ++ [dashes] ++ m :: M
          ++ [dashes, timingText]) := by simp [layout]
    rw [h]; exact getLine_at _ _ _ _ (by simp)
  · have h : layout J C (i :: I) (o :: O) (e :: E) (m :: M) =
        ([J, dashes, C, dashes] ++ i :: I ++ [dashes]) ++ o ::
        (O ++ [dashes] ++ e :: E ++ [dashes] ++ m :: M ++ [dashes, timingText]) := by
      simp [layout]
    rw [h]; exact getLine_at _ _ _ _ (by simp; omega)
  · have h : layout J C (i :: I) (o :: O) (e :: E) (m :: M) =
        ([J, dashes, C, dashes] ++ i :: I ++ [dashes] ++ o :: O ++ [dashes]) ++ e ::
        (E ++ [dashes] ++ m :: M ++ [dashes, timingText]) := by
      simp [layout]
    rw [h]; exact getLine_at _ _ _ _ (by simp; omega)
  · have h : layout J C (i :: I) (o :: O) (e :: E) (m :: M) =
        ([J, dashes, C, dashes] ++ i :: I ++ [dashes] ++ o :: O ++ [dashes] ++ e :: E
          ++ [dashes]) ++ m :: (M ++ [dashes, timingText]) := by
      simp [layout]
    rw [h]; exact getLine_at _ _ _ _ (by simp; omega)
  · have h : layout J C (i :: I) (o :: O) (e :: E) (m :: M) =
        ([J, dashes, C, dashes] ++ i :: I ++ [dashes] ++ o :: O ++ [dashes] ++ e :: E
          ++ [dashes] ++ m :: M ++ [dashes]) ++ timingText :: [] := by
      simp [layout]
    rw [h]; exact getLine_at _ _ _ _ (by simp; omega)
  · have h : layout J C (i :: I) (o :: O) (e :: E) (m :: M) =
        ([J, dashes, C, dashes] ++ i :: I ++ [dashes] ++ o :: O ++ [dashes] ++ e :: E
          ++ [dashes] ++ m :: M ++ [dashes]) ++ [timingText] := by
      simp [layout]
    rw [h, List.getLast?_append]; simp
  · simp [layout]; omega

/-- C3: when the bytes written by `mustWrite` are split into lines at LF and the
lines are numbered from 1, line `Cmd` of the header is the command line, lines
`Stdin`, `Stdout`, `Stderr` and `Err` are the first lines of the stdin, stdout,
stderr and error texts, and line `Timing` is the timing placeholder, which is the
last line: `Timing` is the number of lines. -/
theorem header_offsets_point_at_section_starts (rec : recording)
    (hcmd : LF ∉ rec.cmd) (hargs : ∀ a ∈ rec.args, LF ∉ a) :
    getLine (split LF (mustWrite rec)) ((header rec).Cmd - 1) = .ok (cmdLine rec)
    ∧ getLine (split LF (mustWrite rec)) ((header rec).Stdin - 1) = .ok (firstLine rec.stdin)
    ∧ getLine (split LF (mustWrite rec)) ((header rec).Stdout - 1) = .ok (firstLine rec.stdout)
    ∧ getLine (split LF (mustWrite rec)) ((header rec).Stderr - 1) = .ok (firstLine rec.stderr)
    ∧ getLine (split LF (mustWrite rec)) ((header rec).Err - 1) = .ok (firstLine (errStr rec))
    ∧ getLine (split LF (mustWrite rec)) ((header rec).Timing - 1) = .ok timingText
    ∧ (split LF (mustWrite rec)).getLast? = some timingText
    ∧ (header rec).Timing = (split LF (mustWrite rec)).length := by
  rw [split_mustWrite rec (LF_not_mem_cmdLine rec hcmd hargs)]
  obtain ⟨I, hI, lI⟩ := split_eq_firstLine_cons rec.stdin
  obtain ⟨O, hO, lO⟩ := split_eq_firstLine_cons rec.stdout
  obtain ⟨E, hE, lE⟩ := split_eq_firstLine_cons rec.stderr
  obtain ⟨M, hM, lM⟩ := split_eq_firstLine_cons (errStr rec)
  rw [hI, hO, hE, hM]
  obtain ⟨h1, h2, h3, h4, h5, h6, h7, h8⟩ := getLine_layout (jsonMarshal (header rec))
    (cmdLine rec) (firstLine rec.stdin) (firstLine rec.stdout) (firstLine rec.stderr)
    (firstLine (errStr rec)) I O E M
  simp only [lI, lO, lE, lM] at h3 h4 h5 h6 h8
  have a1 : (header rec).Cmd - 1 = 2 := by simp [header, sepLen]
  have a2 : (header rec).Stdin - 1 = 4 := by simp [header, sepLen]
  have a3 : (header rec).Stdout - 1 = 6 + (count LF rec.stdin : Int) := by
    simp [header, sepLen]; omega
  have a4 : (header rec).Stderr - 1 = 8 + (count LF rec.stdin : Int) + count LF rec.stdout := by
    simp [header, sepLen]; omega
  have a5 : (header rec).Err - 1 = 10 + (count LF rec.stdin : Int) + count LF rec.stdout
      + count LF rec.stderr := by
    simp [header, sepLen]; omega
  have a6 : (header rec).Timing - 1 = 12 + (count LF rec.stdin : Int) + count LF rec.stdout
      + count LF rec.stderr + count LF (errStr rec) := by
    simp [header, sepLen]; omega
  rw [a1, a2, a3, a4, a5, a6]
  refine ⟨h1, h2, h3, h4, h5, h6, h7, ?_⟩
  rw [h8]
  have := a6
  push_cast
  omega

theorem header_offsets_point_at_section_starts_witness :
    getLine (split LF (mustWrite ⟨str "ls", [str "-a"], str "x\ny", [], [], none⟩))
      ((header ⟨str "ls", [str "-a"], str "x\ny", [], [], none⟩).Stdout - 1) = .ok [] :=
  (header_offsets_point_at_section_starts ⟨str "ls", [str "-a"], str "x\ny", [], [], none⟩
    (by decide) (by decide)).2.2.1

/-! ## Naming (C4 to C7) -/

theorem fnvWrite_eq_foldl (h : Nat) (s : Str) :
    fnvWrite h s = s.foldl (fun h c => (h ^^^ c) * 16777619 % 4294967296) h := by
  induction s generalizing h with
  | nil => rfl
  | cons c s ih => simp [fnvWrite, ih]

theorem fnvWrite_append (h : Nat) (a b : Str) :
    fnvWrite h (a ++ b) = fnvWrite (fnvWrite h a) b := by
  simp [fnvWrite_eq_foldl]

theorem foldl_fnvWrite (h : Nat) (args : List Str) :
    args.foldl fnvWrite h = fnvWrite h args.flatten := by
  induction args generalizing h with
  | nil => rfl
  | cons a args ih => simp [ih, fnvWrite_append]

theorem nameHash_eq (stdin cmd : Str) (args : List Str) :
    nameHash stdin cmd args = fnv1a32 (stdin ++ cmd ++ args.flatten) := by
  simp [nameHash, foldl_fnvWrite, fnv1a32, fnvWrite_eq_foldl, fnvNew32a]

/-- C4: the name is cmd, "-", the slug, "-" and the hexadecimal rendering of the
32-bit FNV-1a hash of the bytes of stdin, then of cmd, then of every argument in
order; it is determined by stdin, cmd and args. -/
theorem filename_format (t : UnicodeTables) (stdin cmd : Str) (args : List Str) :
    filename t stdin cmd args
      = cmd ++ str "-" ++ slug t args ++ str "-" ++ hex (fnv1a32 (stdin ++ cmd ++ args.flatten)) := by
  rw [filename, nameHash_eq]

/-- C5 (fails on the code): with 26 letters in the arguments the slug has 21
characters, not 20. -/
theorem slug_has_21_characters :
    slug latin1Tables [str "abcdefghijklmnopqrstuvwxyz"] = str "abcdefghijklmnopqrstu"
    ∧ (slug latin1Tables [str "abcdefghijklmnopqrstuvwxyz"]).length = 21
    ∧ filename latin1Tables [] (str "ls") [str "abcdefghijklmnopqrstuvwxyz"]
        = str "ls-abcdefghijklmnopqrstu-ed09b6a3" := by
  decide

/-- C6 (fails on the code): a cmd with a path separator gives a name with a path
separator. -/
theorem filename_with_path_separator :
    filename latin1Tables [] (str "/bin/ls") [str "-a"] = str "/bin/ls-a-6185b157"
    ∧ 47 ∈ filename latin1Tables [] (str "/bin/ls") [str "-a"] := by
  decide

theorem fnvWrite_lt (h : Nat) (s : Str) (hh : h < 2 ^ 32) : fnvWrite h s < 2 ^ 32 := by
  induction s generalizing h with
  | nil => simpa [fnvWrite] using hh
  | cons c s ih => exact ih _ (Nat.mod_lt _ (by norm_num))

theorem nameHash_lt (stdin cmd : Str) (args : List Str) :
    nameHash stdin cmd args < 2 ^ 32 := by
  rw [nameHash, foldl_fnvWrite]
  exact fnvWrite_lt _ _ (fnvWrite_lt _ _ (fnvWrite_lt _ _ (by norm_num [fnvNew32a])))

theorem length_digitsAux (b : Nat) (hb : 2 ≤ b) (fuel n : Nat) (acc : List Nat)
    (hf : n < fuel) : (digitsAux b fuel n acc).length = acc.length + (Nat.log b n + 1) := by
  induction fuel generalizing n acc with
  | zero => omega
  | succ f ih =>
    unfold digitsAux
    split_ifs with hn
    · simp [Nat.log_of_lt hn]
    · have hn' : b ≤ n := Nat.le_of_not_lt hn
      have hdiv : n / b < n := Nat.div_lt_self (by omega) (by omega)
      rw [ih (n / b) _ (by omega), Nat.log_div_base]
      have : 1 ≤ Nat.log b n := by
        rw [← Nat.pow_le_iff_le_log (by omega) (by omega)]
        simpa using hn'
      simp
      omega

theorem length_hex (n : Nat) : (hex n).length = Nat.log 16 n + 1 := by
  simp [hex, digits, length_digitsAux 16 (by norm_num) (n + 1) n [] (by omega)]

theorem isHexDigit_hex (n : Nat) : ∀ b ∈ hex n, isHexDigit b = true := by
  intro b hb
  simp only [hex, List.mem_map] at hb
  obtain ⟨d, hd, rfl⟩ := hb
  have := digits_lt 16 (by norm_num) n d hd
  unfold digitByte isHexDigit
  split_ifs <;> simp <;> omega

theorem afterLast_append_cons (c : Nat) (a b : Str) (h : c ∉ b) :
    afterLast c (a ++ c :: b) = b := by
  simp [afterLast, split_append_cons, split_of_not_mem c b h]

/-- C7 (as stated, fails on the code): the name of `git log` without stdin ends in
the seven digits `4420c3b`. -/
theorem hash_component_of_seven_digits :
    filename latin1Tables [] (str "git") [str "log"] = str "git-log-4420c3b"
    ∧ afterLast 45 (filename latin1Tables [] (str "git") [str "log"]) = str "4420c3b"
    ∧ (afterLast 45 (filename latin1Tables [] (str "git") [str "log"])).length = 7 := by
  decide

/-- C7 (amended): the part of the name after the last "-" is the hash in lower-case
hexadecimal without padding: at least 1 and at most 8 hexadecimal digits, 8 of
them exactly when the hash is at least 2^28. -/
theorem hash_component_width (t : UnicodeTables) (stdin cmd : Str) (args : List Str) :
    afterLast 45 (filename t stdin cmd args) = hex (nameHash stdin cmd args)
    ∧ 1 ≤ (afterLast 45 (filename t stdin cmd args)).length
    ∧ (afterLast 45 (filename t stdin cmd args)).length ≤ 8
    ∧ (∀ b ∈ afterLast 45 (filename t stdin cmd args), isHexDigit b = true)
    ∧ ((afterLast 45 (filename t stdin cmd args)).length = 8
        ↔ 2 ^ 28 ≤ nameHash stdin cmd args) := by
  have hx := isHexDigit_hex (nameHash stdin cmd args)
  have h45 : 45 ∉ hex (nameHash stdin cmd args) := fun h => by
    have := hx 45 h
    simp [isHexDigit] at this
  have e : afterLast 45 (filename t stdin cmd args) = hex (nameHash stdin cmd args) := by
    have : filename t stdin cmd args
        = (cmd ++ str "-" ++ slug t args) ++ 45 :: hex (nameHash stdin cmd args) := by
      simp [filename, str]
    rw [this, afterLast_append_cons _ _ _ h45]
  have hlt := nameHash_lt stdin cmd args
  rw [e, length_hex]
  refine ⟨rfl, by omega, ?_, hx, ?_⟩
  · by_cases h0 : nameHash stdin cmd args = 0
    · simp [h0]
    · have : Nat.log 16 (nameHash stdin cmd args) < 8 := by
        rw [← Nat.lt_pow_iff_log_lt (by norm_num) h0]
        norm_num at hlt ⊢
        exact hlt
      omega
  · by_cases h0 : nameHash stdin cmd args = 0
    · simp [h0]
    · have h1 : Nat.log 16 (nameHash stdin cmd args) < 8 := by
        rw [← Nat.lt_pow_iff_log_lt (by norm_num) h0]
        norm_num at hlt ⊢
        exact hlt
      have h2 : 16 ^ 7 ≤ nameHash stdin cmd args ↔ 7 ≤ Nat.log 16 (nameHash stdin cmd args) :=
        Nat.pow_le_iff_le_log (by norm_num) h0
      norm_num at h2 ⊢
      omega

/-! ## What the name is made of -/

theorem slugLoop_eq (t : UnicodeTables) (vs : List Nat) (i : Nat) (a : Str)
    (hi : i ≤ maxArgsLen) :
    slugLoop t vs i a
      = a ++ (((vs.filter (fun v => IsLetter t v || IsDigit t v)).take
          (maxArgsLen + 1 - i)).map encodeRune).flatten := by
  induction vs generalizing i a with
  | nil => simp [slugLoop]
  | cons v vs ih =>
    unfold slugLoop
    by_cases hv : (IsLetter t v || IsDigit t v) = true
    · have hf : (v :: vs).filter (fun v => IsLetter t v || IsDigit t v)
          = v :: vs.filter (fun v => IsLetter t v || IsDigit t v) := by
        simp [List.filter_cons, hv]
      rw [if_pos hv, hf]
      by_cases hlast : i + 1 > maxArgsLen
      · have : maxArgsLen + 1 - i = 1 := by omega
        rw [if_pos hlast, this]
        simp
      · have : maxArgsLen + 1 - i = (maxArgsLen + 1 - (i + 1)) + 1 := by omega
        rw [if_neg hlast, ih (i + 1) _ (by omega), this, List.take_succ_cons]
        simp
    · have hf : (v :: vs).filter (fun v => IsLetter t v || IsDigit t v)
          = vs.filter (fun v => IsLetter t v || IsDigit t v) := by
        simp [List.filter_cons, hv]
      rw [if_neg hv, hf]
      exact ih i a hi

/-- The slug is made of the first 21 letters and digits of the joined arguments. -/
theorem slug_eq_take (t : UnicodeTables) (args : List Str) :
    slug t args
      = ((((runes (join [] args)).filter (fun v => IsLetter t v || IsDigit t v)).take 21).map
          encodeRune).flatten := by
  rw [slug, slugLoop_eq t _ 0 [] (by decide)]
  rfl

theorem not_mem_encodeRune (r : Nat) (h : 47 ∈ encodeRune r) : r = 47 := by
  unfold encodeRune at h
  split_ifs at h
  · simpa [eq_comm] using h
  · simp at h; omega
  · simp at h
  · simp at h; omega
  · simp at h; omega

theorem not_mem_slug (t : UnicodeTables) (args : List Str) : 47 ∉ slug t args := by
  rw [slug_eq_take]
  intro h
  simp only [List.mem_flatten, List.mem_map] at h
  obtain ⟨l, ⟨r, hr, rfl⟩, hm⟩ := h
  have h47 := not_mem_encodeRune r hm
  subst h47
  have := (List.mem_filter.1 (List.mem_of_mem_take hr)).2
  simp [IsLetter, IsDigit] at this

/-- The name contains a path separator exactly when cmd contains one. -/
theorem slash_mem_filename_iff (t : UnicodeTables) (stdin cmd : Str) (args : List Str) :
    47 ∈ filename t stdin cmd args ↔ 47 ∈ cmd := by
  have h1 := not_mem_slug t args
  have h2 : 47 ∉ hex (nameHash stdin cmd args) := fun h => by
    have := isHexDigit_hex _ 47 h
    simp [isHexDigit] at this
  simp [filename, str, h1, h2]

/-! ## Failures of the decoder (C9) -/

theorem wrapInt_eq (x : Int) (h0 : -9223372036854775808 ≤ x) (h1 : x < 9223372036854775808) :
    wrapInt x = x := by
  unfold wrapInt
  omega

theorem wrapInt_range (x : Int) :
    -9223372036854775808 ≤ wrapInt x ∧ wrapInt x < 9223372036854775808 := by
  unfold wrapInt
  omega

theorem getLine_error (lines : List Str) (i : Int) (h : i < 0 ∨ (lines.length : Int) ≤ i) :
    getLine lines i = .error .index := by
  unfold getLine
  split_ifs with h0
  · rfl
  · have : lines.get? i.toNat = none := by
      rw [List.get?_eq_none]
      omega
    rw [this]

theorem getLine_ok (lines : List Str) (i : Int) (h0 : 0 ≤ i) (h1 : i < lines.length) :
    ∃ l, getLine lines i = .ok l := by
  unfold getLine
  rw [if_neg (by omega)]
  have : i.toNat < lines.length := by omega
  rw [List.get?_eq_get this]
  exact ⟨_, rfl⟩

theorem sliceLoop_error (lines : List Str) (stop : Int) (n : Nat) (i : Int) (b : Str)
    (hn : 0 < n) (hi : i + n = stop) (h : i < 0 ∨ (lines.length : Int) ≤ stop) :
    sliceLoop lines stop n i b = .error .index := by
  induction n generalizing i b with
  | zero => omega
  | succ n ih =>
    unfold sliceLoop
    by_cases hl : i < 0 ∨ (lines.length : Int) ≤ i
    · rw [getLine_error lines i hl]
    · obtain ⟨l, hl'⟩ := getLine_ok lines i (by omega) (by omega)
      rw [hl']
      simp only
      split_ifs with hlt
      · exact ih (i + 1) _ (by omega) (by omega) (by omega)
      · rw [getLine_error lines (i + 1) (by omega)]

theorem sliceLoop_ok (lines : List Str) (stop : Int) (n : Nat) (i : Int) (b : Str)
    (hi : i + n = stop) (h0 : 0 ≤ i) (h : 0 < n → stop < lines.length) :
    ∃ s, sliceLoop lines stop n i b = .ok s := by
  induction n generalizing i b with
  | zero => exact ⟨b, rfl⟩
  | succ n ih =>
    unfold sliceLoop
    have hs := h (by omega)
    obtain ⟨l, hl⟩ := getLine_ok lines i h0 (by omega)
    rw [hl]
    simp only
    split_ifs with hlt
    · exact ih (i + 1) _ (by omega) (by omega) (fun _ => hs)
    · obtain ⟨nx, hnx⟩ := getLine_ok lines (i + 1) (by omega) (by omega)
      rw [hnx]
      simp only
      split_ifs
      · exact ih (i + 1) _ (by omega) (by omega) (fun _ => hs)
      · exact ih (i + 1) _ (by omega) (by omega) (fun _ => hs)

theorem slice_ok (lines : List Str) (start stop : Int)
    (h : sliceInRange lines.length start stop) : ∃ s, slice lines start stop = .ok s := by
  unfold slice
  rcases h with h | ⟨h0, h1⟩
  · have : (stop - start).toNat = 0 := by omega
    rw [this]
    exact ⟨[], rfl⟩
  · by_cases hle : stop ≤ start
    · have : (stop - start).toNat = 0 := by omega
      rw [this]
      exact ⟨[], rfl⟩
    · exact sliceLoop_ok lines stop _ start [] (by omega) h0 (fun _ => h1)

theorem slice_error (lines : List Str) (start stop : Int)
    (h : ¬ sliceInRange lines.length start stop) : slice lines start stop = .error .index := by
  unfold sliceInRange at h
  unfold slice
  exact sliceLoop_error lines stop _ start [] (by omega) (by omega) (by omega)

theorem split_eq_cons (c : Nat) (s : Str) : ∃ p ps, split c s = p :: ps :=
  List.exists_cons_of_ne_nil (split_ne_nil c s)

theorem mustRead_ok_of_inRange (unmarshal : Str → Option RecordingHeader) (input : Str)
    (lines : List Str) (l0 : Str) (h : RecordingHeader) (hs : scanLines input = .ok lines)
    (hl : lines.head? = some l0) (hu : unmarshal l0 = some h)
    (hr : headerInRange lines.length h) : ∃ rec, mustRead unmarshal input = .ok rec := by
  obtain ⟨c1, c2, r1, r2, r3, r4⟩ := hr
  have g0 : getLine lines 0 = .ok l0 := by
    cases lines with
    | nil => simp at hl
    | cons a l => simp at hl; simp [getLine, hl]
  obtain ⟨cl, hcl⟩ := getLine_ok lines (wrapInt (h.Cmd - 1)) c1 c2
  obtain ⟨p, ps, hp⟩ := split_eq_cons SP cl
  obtain ⟨s1, e1⟩ := slice_ok lines _ _ r1
  obtain ⟨s2, e2⟩ := slice_ok lines _ _ r2
  obtain ⟨s3, e3⟩ := slice_ok lines _ _ r3
  obtain ⟨s4, e4⟩ := slice_ok lines _ _ r4
  simp only [mustRead, hs, g0, hu, hcl, hp, e1, e2, e3, e4]
  exact ⟨_, rfl⟩

theorem mustRead_error_of_not_inRange (unmarshal : Str → Option RecordingHeader)
    (input : Str) (lines : List Str) (l0 : Str) (h : RecordingHeader)
    (hs : scanLines input = .ok lines) (hl : lines.head? = some l0)
    (hu : unmarshal l0 = some h) (hr : ¬ headerInRange lines.length h) :
    mustRead unmarshal input = .error .index := by
  have g0 : getLine lines 0 = .ok l0 := by
    cases lines with
    | nil => simp at hl
    | cons a l => simp at hl; simp [getLine, hl]
  simp only [mustRead, hs, g0, hu]
  by_cases hc : 0 ≤ wrapInt (h.Cmd - 1) ∧ wrapInt (h.Cmd - 1) < lines.length
  · obtain ⟨cl, hcl⟩ := getLine_ok lines (wrapInt (h.Cmd - 1)) hc.1 hc.2
    obtain ⟨p, ps, hp⟩ := split_eq_cons SP cl
    simp only [hcl, hp]
    by_cases r1 : sliceInRange lines.length (wrapInt (h.Stdin - 1)) (wrapInt (h.Stdout - sepLen))
    · obtain ⟨s1, e1⟩ := slice_ok lines _ _ r1
      simp only [e1]
      by_cases r2 : sliceInRange lines.length (wrapInt (h.Stdout - 1)) (wrapInt (h.Stderr - sepLen))
      · obtain ⟨s2, e2⟩ := slice_ok lines _ _ r2
        simp only [e2]
        by_cases r3 : sliceInRange lines.length (wrapInt (h.Stderr - 1)) (wrapInt (h.Err - sepLen))
        · obtain ⟨s3, e3⟩ := slice_ok lines _ _ r3
          simp only [e3]
          by_cases r4 : sliceInRange lines.length (wrapInt (h.Err - 1)) (wrapInt (h.Timing - sepLen))
          · exact absurd ⟨hc.1, hc.2, r1, r2, r3, r4⟩ hr
          · rw [slice_error lines _ _ r4]
        · rw [slice_error lines _ _ r3]
      · rw [slice_error lines _ _ r2]
    · rw [slice_error lines _ _ r1]
  · rw [getLine_error lines (wrapInt (h.Cmd - 1)) (by omega)]

set_option maxRecDepth 1000000 in
/-- C9 (as stated, fails on the code): a one-line file whose header has `Cmd` 1 and
all section offsets 0 (left out), and one whose section offsets are all 9, beyond
the only line, are decoded without a panic. -/
theorem mustRead_returns_with_offsets_outside_the_lines :
    scanLines (str "\x7b\"version\":1,\"cmd\":1\x7d") = .ok [str "\x7b\"version\":1,\"cmd\":1\x7d"]
    ∧ refUnmarshal (str "\x7b\"version\":1,\"cmd\":1\x7d") = some ⟨1, 1, 0, 0, 0, 0, 0⟩
    ∧ mustRead refUnmarshal (str "\x7b\"version\":1,\"cmd\":1\x7d")
        = .ok ⟨str "\x7b\"version\":1,\"cmd\":1\x7d", [], [], [], [], none⟩
    ∧ refUnmarshal (str
        "\x7b\"version\":1,\"cmd\":1,\"stdin\":9,\"stdout\":9,\"stderr\":9,\"err\":9,\"timing\":9\x7d")
        = some ⟨1, 1, 9, 9, 9, 9, 9⟩
    ∧ mustRead refUnmarshal (str
        "\x7b\"version\":1,\"cmd\":1,\"stdin\":9,\"stdout\":9,\"stderr\":9,\"err\":9,\"timing\":9\x7d")
        = .ok ⟨str
        "\x7b\"version\":1,\"cmd\":1,\"stdin\":9,\"stdout\":9,\"stderr\":9,\"err\":9,\"timing\":9\x7d",
        [], [], [], [], none⟩ := by
  decide!

/-! ## The reference decoder inverts the encoder -/

theorem stripPrefix_append (p s : Str) : stripPrefix p (p ++ s) = some s := by
  induction p with
  | nil => cases s <;> rfl
  | cons a p ih => simp [stripPrefix, ih]

theorem foldl_dec (ds : List Nat) (a : Nat) :
    ds.foldl (fun a d => 10 * a + d) a = a * 10 ^ ds.length + ds.foldl (fun a d => 10 * a + d) 0 := by
  induction ds generalizing a with
  | nil => simp
  | cons d ds ih =>
    simp only [List.foldl_cons, List.length_cons]
    rw [ih (10 * a + d), ih (10 * 0 + d)]
    ring

theorem value_digitsAux (fuel n : Nat) (acc : List Nat) (hf : n < fuel) :
    (digitsAux 10 fuel n acc).foldl (fun a d => 10 * a + d) 0
      = n * 10 ^ acc.length + acc.foldl (fun a d => 10 * a + d) 0 := by
  induction fuel generalizing n acc with
  | zero => omega
  | succ f ih =>
    unfold digitsAux
    split_ifs with hn
    · simp only [List.foldl_cons]
      rw [foldl_dec]
      simp
    · have hdiv : n / 10 < n := Nat.div_lt_self (by omega) (by omega)
      rw [ih (n / 10) _ (by omega)]
      simp only [List.foldl_cons, List.length_cons]
      rw [foldl_dec acc (10 * 0 + n % 10)]
      have := Nat.div_add_mod n 10
      have e : n / 10 * 10 ^ (acc.length + 1) = (n / 10 * 10) * 10 ^ acc.length := by ring
      rw [e]
      have e2 : n / 10 * 10 = n - n % 10 := by omega
      rw [e2]
      have e3 : (n - n % 10) * 10 ^ acc.length + ((10 * 0 + n % 10) * 10 ^ acc.length
          + acc.foldl (fun a d => 10 * a + d) 0)
          = ((n - n % 10) + n % 10) * 10 ^ acc.length + acc.foldl (fun a d => 10 * a + d) 0 := by
        ring
      rw [e3]
      have e4 : n - n % 10 + n % 10 = n := by omega
      rw [e4]

theorem decValue_map_digitByte (ds : List Nat) (h : ∀ d ∈ ds, d < 10) (a : Nat) :
    (ds.map digitByte).foldl (fun a d => 10 * a + (d - 48)) a
      = ds.foldl (fun a d => 10 * a + d) a := by
  induction ds generalizing a with
  | nil => rfl
  | cons d ds ih =>
    have hd := h d (by simp)
    simp only [List.map_cons, List.foldl_cons]
    rw [ih (fun x hx => h x (List.mem_cons_of_mem _ hx))]
    simp [digitByte, hd]

theorem decValue_natToDec (n : Nat) : decValue (natToDec n) = n := by
  rw [decValue, natToDec, decValue_map_digitByte _ (digits_lt 10 (by norm_num) n), digits,
    value_digitsAux (n + 1) n [] (by omega)]
  simp

theorem natToDec_ne_nil (n : Nat) : natToDec n ≠ [] := by
  have := length_digitsAux 10 (by norm_num) (n + 1) n [] (by omega)
  intro h
  have hl : (natToDec n).length = 0 := by rw [h]; rfl
  simp [natToDec, digits, this] at hl

theorem spanDigits_append (ds rest : Str) (hds : ∀ b ∈ ds, isDecDigit b = true)
    (hr : noDigitAhead rest) : spanDigits (ds ++ rest) = (ds, rest) := by
  induction ds with
  | nil =>
    cases rest with
    | nil => rfl
    | cons b r => simp [spanDigits, hr b r rfl]
  | cons d ds ih =>
    have hd := hds d (by simp)
    have := ih (fun b hb => hds b (List.mem_cons_of_mem _ hb))
    simp [spanDigits, hd, this]

theorem parseNat_natToDec (n : Nat) (rest : Str) (hr : noDigitAhead rest) :
    parseNat (natToDec n ++ rest) = some (n, rest) := by
  have hds : ∀ b ∈ natToDec n, isDecDigit b = true := by
    intro b hb
    have := natToDec_isDigit n b hb
    simp [isDecDigit, this.1, this.2]
  simp [parseNat, spanDigits_append _ _ hds hr, natToDec_ne_nil, decValue_natToDec]

theorem itoa_of_nonneg (v : Int) (hv : 0 ≤ v) : itoa v = natToDec v.toNat := by
  have : ¬ v < 0 := by omega
  rw [itoa, if_neg this]
  congr 1
  omega

theorem parseField_jsonField (first : Bool) (key : String) (v : Int) (hv : 0 ≤ v) (rest : Str)
    (hr : noDigitAhead rest) :
    parseField first key (jsonField first key v ++ rest) = some (v, rest) := by
  have e : jsonField first key v ++ rest
      = ((if first then [] else str ",") ++ str "\"" ++ str key ++ str "\":")
        ++ (natToDec v.toNat ++ rest) := by
    simp [jsonField, itoa_of_nonneg v hv, List.append_assoc]
  rw [parseField, e, stripPrefix_append]
  simp only [parseNat_natToDec _ _ hr]
  congr 2
  omega

theorem restOk_close (ks : List String) : restOk ks (str "\x7d") := by
  refine ⟨?_, ?_⟩
  · intro b r h
    have : b = 125 := by
      have := congrArg List.head? h
      simpa [str] using this.symm
    subst this
    decide
  · intro k _
    simp [memberOpen, str, stripPrefix]

theorem restOk_member (ks : List String) (key : String) (v : Int) (s : Str)
    (hs : restOk ks s)
    (hk : ∀ k ∈ ks, ∀ t, stripPrefix (memberOpen k) (memberOpen key ++ t) = none) :
    restOk ks (jsonFieldOmitEmpty key v ++ s) := by
  unfold jsonFieldOmitEmpty
  split_ifs with hv
  · simpa using hs
  · refine ⟨?_, ?_⟩
    · intro b r h
      have : b = 44 := by
        have := congrArg List.head? h
        simpa [jsonField, str] using this.symm
      subst this
      decide
    · intro k hkm
      have e : jsonField false key v ++ s = memberOpen key ++ (itoa v ++ s) := by
        simp [jsonField, memberOpen, List.append_assoc]
      rw [e]
      exact hk k hkm _

theorem parseFieldOmitEmpty_jsonField (key : String) (v : Int) (hv : 0 ≤ v) (rest : Str)
    (hr : restOk [key] rest) :
    parseFieldOmitEmpty key (jsonFieldOmitEmpty key v ++ rest) = some (v, rest) := by
  unfold jsonFieldOmitEmpty
  split_ifs with h0
  · have := hr.2 key (by simp)
    simp only [memberOpen] at this
    rw [parseFieldOmitEmpty, List.nil_append, this]
    simp [h0]
  · have e : jsonField false key v ++ rest
        = (str "," ++ str "\"" ++ str key ++ str "\":") ++ (natToDec v.toNat ++ rest) := by
      simp [jsonField, itoa_of_nonneg v hv, List.append_assoc]
    rw [parseFieldOmitEmpty, e, stripPrefix_append]
    simp only [parseNat_natToDec _ _ hr.1]
    congr 2
    omega

theorem restOk_mono (ks ks2 : List String) (s : Str) (h : restOk ks s)
    (hsub : ∀ k ∈ ks2, k ∈ ks) : restOk ks2 s :=
  ⟨h.1, fun k hk => h.2 k (hsub k hk)⟩

/-- The reference decoder returns the header from the line `json.Marshal` writes
for it, for every header without a negative field. -/
theorem refUnmarshal_jsonMarshal (h : RecordingHeader) (h1 : 0 ≤ h.Version) (h2 : 0 ≤ h.Cmd)
    (h3 : 0 ≤ h.Stdin) (h4 : 0 ≤ h.Stdout) (h5 : 0 ≤ h.Stderr) (h6 : 0 ≤ h.Err)
    (h7 : 0 ≤ h.Timing) : refUnmarshal (jsonMarshal h) = some h := by
  have g5 : restOk ["stdin", "stdout", "stderr", "err", "timing"] (str "\x7d") := restOk_close _
  have g4 : restOk ["stdin", "stdout", "stderr", "err"]
      (jsonFieldOmitEmpty "timing" h.Timing ++ str "\x7d") :=
    restOk_member _ _ _ _ (restOk_mono _ _ _ g5 (by simp))
      (by intro k hk t; simp at hk; rcases hk with rfl | rfl | rfl | rfl <;>
        simp [memberOpen, str, stripPrefix])
  have g3 : restOk ["stdin", "stdout", "stderr"]
      (jsonFieldOmitEmpty "err" h.Err ++ (jsonFieldOmitEmpty "timing" h.Timing ++ str "\x7d")) :=
    restOk_member _ _ _ _ (restOk_mono _ _ _ g4 (by simp))
      (by intro k hk t; simp at hk; rcases hk with rfl | rfl | rfl <;>
        simp [memberOpen, str, stripPrefix])
  have g2 : restOk ["stdin", "stdout"]
      (jsonFieldOmitEmpty "stderr" h.Stderr ++ (jsonFieldOmitEmpty "err" h.Err
        ++ (jsonFieldOmitEmpty "timing" h.Timing ++ str "\x7d"))) :=
    restOk_member _ _ _ _ (restOk_mono _ _ _ g3 (by simp))
      (by intro k hk t; simp at hk; rcases hk with rfl | rfl <;>
        simp [memberOpen, str, stripPrefix])
  have g1 : restOk ["stdin"]
      (jsonFieldOmitEmpty "stdout" h.Stdout ++ (jsonFieldOmitEmpty "stderr" h.Stderr
        ++ (jsonFieldOmitEmpty "err" h.Err
        ++ (jsonFieldOmitEmpty "timing" h.Timing ++ str "\x7d")))) :=
    restOk_member _ _ _ _ (restOk_mono _ _ _ g2 (by simp))
      (by intro k hk t; simp at hk; subst hk; simp [memberOpen, str, stripPrefix])
  have g0 : restOk []
      (jsonFieldOmitEmpty "stdin" h.Stdin ++ (jsonFieldOmitEmpty "stdout" h.Stdout
        ++ (jsonFieldOmitEmpty "stderr" h.Stderr ++ (jsonFieldOmitEmpty "err" h.Err
        ++ (jsonFieldOmitEmpty "timing" h.Timing ++ str "\x7d"))))) :=
    restOk_member _ _ _ _ (restOk_mono _ _ _ g1 (by simp)) (by simp)
  have gc : noDigitAhead (jsonField false "cmd" h.Cmd
      ++ (jsonFieldOmitEmpty "stdin" h.Stdin ++ (jsonFieldOmitEmpty "stdout" h.Stdout
        ++ (jsonFieldOmitEmpty "stderr" h.Stderr ++ (jsonFieldOmitEmpty "err" h.Err
        ++ (jsonFieldOmitEmpty "timing" h.Timing ++ str "\x7d")))))) := by
    intro b r hb
    have : b = 44 := by
      have := congrArg List.head? hb
      simpa [jsonField, str] using this.symm
    subst this
    decide
  have e : jsonMarshal h = str "\x7b" ++ (jsonField true "version" h.Version
      ++ (jsonField false "cmd" h.Cmd
      ++ (jsonFieldOmitEmpty "stdin" h.Stdin ++ (jsonFieldOmitEmpty "stdout" h.Stdout
        ++ (jsonFieldOmitEmpty "stderr" h.Stderr ++ (jsonFieldOmitEmpty "err" h.Err
        ++ (jsonFieldOmitEmpty "timing" h.Timing ++ str "\x7d"))))))) := by
    simp [jsonMarshal, List.append_assoc]
  rw [refUnmarshal, e, stripPrefix_append]
  simp only [parseField_jsonField true "version" h.Version h1 _ gc,
    parseField_jsonField false "cmd" h.Cmd h2 _ g0.1,
    parseFieldOmitEmpty_jsonField "stdin" h.Stdin h3 _ (restOk_mono _ _ _ g1 (by simp)),
    parseFieldOmitEmpty_jsonField "stdout" h.Stdout h4 _ (restOk_mono _ _ _ g2 (by simp)),
    parseFieldOmitEmpty_jsonField "stderr" h.Stderr h5 _ (restOk_mono _ _ _ g3 (by simp)),
    parseFieldOmitEmpty_jsonField "err" h.Err h6 _ (restOk_mono _ _ _ g4 (by simp)),
    parseFieldOmitEmpty_jsonField "timing" h.Timing h7 _ (restOk_mono _ _ _ g5 (by simp))]
  simp

theorem header_nonneg (rec : recording) :
    0 ≤ (header rec).Version ∧ 0 ≤ (header rec).Cmd ∧ 0 ≤ (header rec).Stdin
    ∧ 0 ≤ (header rec).Stdout ∧ 0 ≤ (header rec).Stderr ∧ 0 ≤ (header rec).Err
    ∧ 0 ≤ (header rec).Timing := by
  simp [header, sepLen]
  omega

/-- The reference decoder reads the header of every written recording. -/
theorem refUnmarshal_header (rec : recording) :
    refUnmarshal (jsonMarshal (header rec)) = some (header rec) := by
  obtain ⟨h1, h2, h3, h4, h5, h6, h7⟩ := header_nonneg rec
  exact refUnmarshal_jsonMarshal _ h1 h2 h3 h4 h5 h6 h7

/-! ## The scanner on a short input

While the input fits the first buffer and its last line starts in the first half of
it, `Scan` never moves or overwrites data, and the lines kept by `mustRead` are the
lines of the text. -/

theorem indexByte_append_cons (c : Nat) (l rest : Str) (h : c ∉ l) :
    indexByte c (l ++ c :: rest) = some l.length := by
  induction l with
  | nil => simp [indexByte]
  | cons b l ih =>
    simp only [List.mem_cons, not_or] at h
    have hb : b ≠ c := fun e => h.1 e.symm
    simp [indexByte, hb, ih h.2]

theorem indexByte_of_not_mem (c : Nat) (l : Str) (h : c ∉ l) : indexByte c l = none := by
  induction l with
  | nil => rfl
  | cons b l ih =>
    simp only [List.mem_cons, not_or] at h
    have hb : b ≠ c := fun e => h.1 e.symm
    simp [indexByte, hb, ih h.2]

theorem dropCR_eq_take (l : Str) : dropCR l = l.take (dropCR l).length := by
  unfold dropCR
  split_ifs
  · simp [List.dropLast_eq_take]
  · simp

theorem length_dropCR_le (l : Str) : (dropCR l).length ≤ l.length := by
  unfold dropCR
  split_ifs <;> simp

theorem textLines_nil : textLines [] = [] := by decide

theorem textLines_of_not_mem (d : Str) (h : LF ∉ d) (hd : d ≠ []) :
    textLines d = [dropCR d] := by
  simp [textLines, split_of_not_mem LF d h, hd]

theorem textLines_append_cons (l rest : Str) (h : LF ∉ l) :
    textLines (l ++ LF :: rest) = dropCR l :: textLines rest := by
  obtain ⟨p, ps, hp⟩ := split_eq_cons LF rest
  simp only [textLines, split_append_cons, split_of_not_mem LF l h, hp]
  simp only [List.singleton_append, List.getLast?_cons_cons, List.dropLast_cons₂]
  split_ifs <;> simp

/-- A text is free of line feeds or starts with a line that ends in one. -/
theorem line_cases (d : Str) :
    LF ∉ d ∨ ∃ l rest, d = l ++ LF :: rest ∧ LF ∉ l := by
  induction d with
  | nil => left; simp
  | cons b d ih =>
    by_cases hb : b = LF
    · right; exact ⟨[], d, by simp [hb], by simp⟩
    · rcases ih with h | ⟨l, rest, hd, hl⟩
      · left
        simp only [List.mem_cons, not_or]
        exact ⟨fun e => hb e.symm, h⟩
      · right
        refine ⟨b :: l, rest, by simp [hd], ?_⟩
        simp only [List.mem_cons, not_or]
        exact ⟨fun e => hb e.symm, hl⟩

theorem ScanLines_line (l rest : Str) (atEOF : Bool) (h : LF ∉ l) :
    ScanLines (l ++ LF :: rest) atEOF = (l.length + 1, some (dropCR l).length) := by
  simp [ScanLines, indexByte_append_cons LF l rest h]

theorem ScanLines_partial (l : Str) (h : LF ∉ l) : ScanLines l false = (0, none) := by
  simp [ScanLines, indexByte_of_not_mem LF l h]

theorem ScanLines_last (l : Str) (h : LF ∉ l) (hl : l ≠ []) :
    ScanLines l true = (l.length, some (dropCR l).length) := by
  simp [ScanLines, indexByte_of_not_mem LF l h, hl]

theorem ScanLines_nil (atEOF : Bool) : ScanLines [] atEOF = (0, none) := by
  cases atEOF <;> simp [ScanLines, indexByte]

/-- A call of `Scan` that finds a complete line in the buffer. -/
theorem Scan_line (f : Nat) (B : Str) (k n : Nat) (R : List Str) (l rest : Str)
    (hB : (B.drop k).take (n - k) = l ++ LF :: rest) (hl : LF ∉ l) (hk : k < n) :
    Scanner.Scan (f + 1) ⟨[], B, k, n, false, R⟩
      = .token ⟨[], B, k + (l.length + 1), n, false, R⟩ ⟨R.length, k, (dropCR l).length⟩ := by
  simp [Scanner.Scan, hk, hB, ScanLines_line l rest false hl]

/-- A call of `Scan` on a last line without line feed: it reads, meets the end of
the input and returns the line. -/
theorem Scan_last (f : Nat) (B : Str) (k n : Nat) (R : List Str) (l : Str)
    (hB : (B.drop k).take (n - k) = l) (hl : LF ∉ l) (hne : l ≠ []) (hk : k < n)
    (hn : n < B.length) (hhalf : k ≤ B.length / 2) :
    Scanner.Scan (f + 2) ⟨[], B, k, n, false, R⟩
      = .token ⟨[], B, k + l.length, n, true, R⟩ ⟨R.length, k, (dropCR l).length⟩ := by
  have hs : ¬ (B.length / 2 < k) := by omega
  have hn' : n ≠ B.length := by omega
  simp [Scanner.Scan, hk, hB, ScanLines_partial l hl, hs, hn', Scanner.read,
    ScanLines_last l hl hne]

/-- A call of `Scan` when all the input has been handed out. -/
theorem Scan_done (f : Nat) (B : Str) (n : Nat) (R : List Str) (eof : Bool)
    (hn : n < B.length) :
    Scanner.Scan (f + 2) ⟨[], B, n, n, eof, R⟩ = .done ⟨[], B, 0, 0, true, R⟩ := by
  cases eof
  · have hn' : n ≠ B.length := by omega
    have h0 : 0 ≠ B.length := by omega
    by_cases hs : 0 < n ∧ B.length / 2 < n
    · simp [Scanner.Scan, ScanLines_nil, hs, Scanner.shift, Scanner.read, h0, hn']
    · simp [Scanner.Scan, ScanLines_nil, hs, Scanner.read, hn']
  · simp [Scanner.Scan, ScanLines_nil]

theorem window (pre data pad : Str) :
    ((pre ++ data ++ pad).drop pre.length).take (pre.length + data.length - pre.length)
      = data := by
  simp [List.append_assoc]

theorem Token_bytes_window (R : List Str) (pre l rest : Str) (len : Nat)
    (hlen : len ≤ l.length) :
    Token.bytes (R ++ [pre ++ l ++ rest]) ⟨R.length, pre.length, len⟩ = l.take len := by
  simp [Token.bytes, List.append_assoc, List.take_append_of_le_length hlen]

theorem afterLast_of_not_mem (c : Nat) (d : Str) (h : c ∉ d) : afterLast c d = d := by
  simp [afterLast, split_of_not_mem c d h]

theorem afterLast_line (c : Nat) (l rest : Str) :
    afterLast c (l ++ c :: rest) = afterLast c rest := by
  obtain ⟨p, ps, hp⟩ := split_eq_cons c rest
  cases hg : (p :: ps).getLast? with
  | none => simp at hg
  | some x => simp [afterLast, split_append_cons, hp, List.getLast?_append, hg]

theorem count_append_cons (c : Nat) (l rest : Str) (h : c ∉ l) :
    count c (l ++ c :: rest) = count c rest + 1 := by
  induction l with
  | nil => simp [count]
  | cons b l ih =>
    simp only [List.mem_cons, not_or] at h
    have hb : b ≠ c := fun e => h.1 e.symm
    simp [count, hb, ih h.2]

/-- The scanning loop from a state in which the rest of the input, `data`, is in
the buffer behind `pre`, the part already scanned. -/
theorem scanLoop_small (m : Nat) : ∀ (data pre pad : Str) (R : List Str) (toks : List Token)
    (fuel : Nat), data.length ≤ m →
    pre.length + data.length < (pre ++ data ++ pad).length →
    (afterLast LF data ≠ [] →
      pre.length + data.length - (afterLast LF data).length ≤ (pre ++ data ++ pad).length / 2) →
    count LF data + 2 ≤ fuel →
    ∃ s nt, scanLoop fuel ⟨[], pre ++ data ++ pad, pre.length, pre.length + data.length,
        false, R⟩ toks = .ok (s, toks ++ nt)
      ∧ s.buf = pre ++ data ++ pad ∧ s.retired = R
      ∧ nt.map (Token.bytes (R ++ [pre ++ data ++ pad])) = textLines data := by
  induction m with
  | zero =>
    intro data pre pad R toks fuel hm hcap _ hfuel
    have hd : data = [] := List.length_eq_zero.1 (by omega)
    subst hd
    obtain ⟨f, rfl⟩ : ∃ f, fuel = f + 1 := ⟨fuel - 1, by omega⟩
    refine ⟨⟨[], pre ++ [] ++ pad, 0, 0, true, R⟩, [], ?_, rfl, rfl, by simp [textLines_nil]⟩
    have := Scan_done 0 (pre ++ [] ++ pad) (pre.length + ([] : Str).length) R false hcap
    simp only [scanLoop]
    simp only [List.length_nil, Nat.zero_add, Nat.add_zero] at this ⊢
    rw [this]
    simp
  | succ m ih =>
    intro data pre pad R toks fuel hm hcap hhalf hfuel
    rcases line_cases data with hfree | ⟨l, rest, hd, hl⟩
    · by_cases hne : data = []
      · exact ih data pre pad R toks fuel (by simp [hne]) hcap hhalf hfuel
      · obtain ⟨f, rfl⟩ : ∃ f, fuel = f + 2 := ⟨fuel - 2, by omega⟩
        have hpos : 0 < data.length := List.length_pos.2 hne
        have hh := hhalf (by rw [afterLast_of_not_mem LF data hfree]; exact hne)
        rw [afterLast_of_not_mem LF data hfree] at hh
        have h1 := Scan_last 0 (pre ++ data ++ pad) pre.length (pre.length + data.length) R data
          (window pre data pad) hfree hne (by omega) hcap (by omega)
        have h2 := Scan_done 0 (pre ++ data ++ pad) (pre.length + data.length) R true hcap
        refine ⟨⟨[], pre ++ data ++ pad, 0, 0, true, R⟩,
          [⟨R.length, pre.length, (dropCR data).length⟩], ?_, rfl, rfl, ?_⟩
        · simp only [scanLoop, List.length_nil, Nat.zero_add]
          rw [h1]
          simp only [List.length_nil, Nat.zero_add]
          rw [h2]
        · rw [textLines_of_not_mem data hfree hne]
          simp only [List.map_cons, List.map_nil]
          rw [Token_bytes_window R pre data pad _ (length_dropCR_le data), ← dropCR_eq_take]
    · subst hd
      obtain ⟨f, rfl⟩ : ∃ f, fuel = f + 1 := ⟨fuel - 1, by omega⟩
      have h1 := Scan_line 1 (pre ++ (l ++ LF :: rest) ++ pad) pre.length
        (pre.length + (l ++ LF :: rest).length) R l rest (window pre _ pad) hl
        (by simp)
      have eB : pre ++ (l ++ LF :: rest) ++ pad = (pre ++ l ++ [LF]) ++ rest ++ pad := by
        simp [List.append_assoc]
      have ek : pre.length + (l.length + 1) = (pre ++ l ++ [LF]).length := by
        simp
      have en : pre.length + (l ++ LF :: rest).length = (pre ++ l ++ [LF]).length + rest.length := by
        simp; omega
      have hcount := count_append_cons LF l rest hl
      obtain ⟨s, nt, hs, hbuf, hret, hbytes⟩ := ih rest (pre ++ l ++ [LF]) pad R
        (toks ++ [⟨R.length, pre.length, (dropCR l).length⟩]) f
        (by simp at hm; omega) (by rw [← eB, ← en]; exact hcap)
        (by
          intro hne
          rw [afterLast_line] at hhalf
          have := hhalf hne
          rw [← eB, ← en]
          exact this)
        (by omega)
      refine ⟨s, ⟨R.length, pre.length, (dropCR l).length⟩ :: nt, ?_, ?_, hret, ?_⟩
      · simp only [scanLoop, List.length_nil, Nat.zero_add]
        rw [h1]
        simp only
        rw [ek, en, eB, hs]
        simp
      · rw [hbuf, eB]
      · rw [textLines_append_cons l rest hl, List.map_cons, ← hbytes, eB]
        congr 1
        rw [← eB]
        have : pre ++ (l ++ LF :: rest) ++ pad = pre ++ l ++ (LF :: rest ++ pad) := by
          simp [List.append_assoc]
        rw [this, Token_bytes_window R pre l _ _ (length_dropCR_le l), ← dropCR_eq_take]

theorem count_le_length (c : Nat) (s : Str) : count c s ≤ s.length := by
  induction s with
  | nil => simp [count]
  | cons b s ih =>
    unfold count
    split_ifs <;> simp <;> omega

/-- The first call of `Scan` allocates the buffer and reads the input into it. -/
theorem Scan_first (input : Str) (f : Nat) (hne : input ≠ [])
    (hn : input.length < startBufSize) :
    Scanner.Scan (f + 1) (NewScanner input)
      = Scanner.Scan f ⟨[], [] ++ input ++ (List.replicate startBufSize 0).drop input.length,
          ([] : Str).length, ([] : Str).length + input.length, false, [[]]⟩ := by
  have h0 : input.length ≠ 0 := fun h => hne (List.length_eq_zero.1 h)
  have hmin : min startBufSize input.length = input.length := by omega
  have hle : input.length ≤ startBufSize := by omega
  have hM : ¬ (MaxScanTokenSize ≤ 0) := by decide
  have hmm : min startBufSize MaxScanTokenSize = startBufSize := by decide
  have hnil : input = [] ↔ False := by simp [hne]
  rw [Scanner.Scan]
  simp [NewScanner, ScanLines_nil, Scanner.grow, Scanner.read, h0, hmin, hM, hmm,
    List.take_of_length_le, hle, hnil]


set_option maxRecDepth 100000 in
theorem scanLines_nil : scanLines [] = .ok [] := by decide!

/-- On an input that fits the first buffer and whose last line starts in the first
half of it, the scanning loop of `mustRead` yields the lines of the text. -/
theorem scanLines_of_short (input : Str) (hn : input.length < startBufSize)
    (hhalf : afterLast LF input ≠ [] →
      input.length - (afterLast LF input).length ≤ startBufSize / 2) :
    scanLines input = .ok (textLines input) := by
  by_cases hne : input = []
  · subst hne
    rw [scanLines_nil, textLines_nil]
  · have hB : ([] ++ input ++ (List.replicate startBufSize 0).drop input.length).length
        = startBufSize := by
      simp; omega
    have hpos : 0 < input.length := List.length_pos.2 hne
    -- the first call of `Scan` returns what a call on the filled buffer returns
    have hfirst : Scanner.Scan (input.length + 2) (NewScanner input)
        = Scanner.Scan 2 ⟨[], [] ++ input ++ (List.replicate startBufSize 0).drop input.length,
          ([] : Str).length, ([] : Str).length + input.length, false, [[]]⟩ := by
      rw [Scan_first input (input.length + 1) hne hn]
      rcases line_cases input with hfree | ⟨l, rest, hd, hl⟩
      · obtain ⟨f, hf⟩ : ∃ f, input.length + 1 = f + 2 := ⟨input.length - 1, by omega⟩
        rw [hf, Scan_last f _ _ _ _ input (window [] input _) hfree hne (by simp; omega)
            (by rw [hB]; simpa using hn) (by simp),
          Scan_last 0 _ _ _ _ input (window [] input _) hfree hne (by simp; omega)
            (by rw [hB]; simpa using hn) (by simp)]
      · rw [Scan_line input.length _ _ _ _ l rest (by rw [window [] input _]; exact hd) hl
            (by simp; omega),
          Scan_line 1 _ _ _ _ l rest (by rw [window [] input _]; exact hd) hl (by simp; omega)]
    have hloop : scanLoop (input.length + 2) (NewScanner input) []
        = scanLoop (input.length + 2)
          ⟨[], [] ++ input ++ (List.replicate startBufSize 0).drop input.length,
            ([] : Str).length, ([] : Str).length + input.length, false, [[]]⟩ [] := by
      have e : (NewScanner input).r.length = input.length := rfl
      simp only [scanLoop, e, List.length_nil, Nat.zero_add]
      simp only [List.length_nil, Nat.zero_add] at hfirst
      rw [hfirst]
    obtain ⟨s, nt, hs, hbuf, hret, hbytes⟩ := scanLoop_small input.length input []
      ((List.replicate startBufSize 0).drop input.length) [[]] [] (input.length + 2)
      (le_refl _) (by rw [hB]; simpa using hn)
      (by
        intro h
        rw [hB]
        simpa using hhalf h)
      (by have := count_le_length LF input; omega)
    rw [scanLines, hloop, hs]
    simp only [List.nil_append, hbuf, hret]
    rw [← hbytes]
    simp

/-! ## The scanner always comes to an end

The step budgets of the model are never exhausted: `Fault.fuel` is not an outcome. -/

theorem indexByte_lt (c : Nat) (l : Str) (i : Nat) (h : indexByte c l = some i) :
    i < l.length := by
  induction l generalizing i with
  | nil => simp [indexByte] at h
  | cons b l ih =>
    unfold indexByte at h
    split_ifs at h
    · simp at h; subst h; simp
    · cases hi : indexByte c l with
      | none => simp [hi] at h
      | some j =>
        simp [hi] at h
        subst h
        have := ih j hi
        simp
        omega

theorem ScanLines_token (data : Str) (atEOF : Bool) (adv len : Nat)
    (h : ScanLines data atEOF = (adv, some len)) : 1 ≤ adv ∧ adv ≤ data.length := by
  unfold ScanLines at h
  by_cases h0 : atEOF = true ∧ data.length = 0
  · rw [if_pos h0] at h
    simp at h
  · rw [if_neg h0] at h
    cases hi : indexByte LF data with
    | some i =>
      rw [hi] at h
      simp at h
      have := indexByte_lt LF data i hi
      omega
    | none =>
      rw [hi] at h
      by_cases hE : atEOF = true
      · simp [hE] at h
        have : data.length ≠ 0 := fun hl => h0 ⟨hE, hl⟩
        omega
      · simp [hE] at h

theorem length_window (s : Scanner) (h : s.wf) :
    ((s.buf.drop s.start).take (s.stop - s.start)).length = s.stop - s.start := by
  have := h.1
  have := h.2
  rw [List.length_take, List.length_drop]
  omega

theorem shift_spec (s : Scanner) (h : s.wf) :
    s.shift.wf ∧ s.shift.rest = s.rest ∧ s.shift.r = s.r ∧ s.shift.eof = s.eof
      ∧ s.shift.buf.length = s.buf.length := by
  have h1 := h.1
  have h2 := h.2
  have hw := length_window s h
  have hst : s.shift.stop = s.stop - s.start := rfl
  have hs0 : s.shift.start = 0 := rfl
  have hr : s.shift.r = s.r := rfl
  have hb : s.shift.buf.length = s.buf.length := by
    simp only [Scanner.shift, List.length_append, hw, List.length_drop]
    omega
  refine ⟨⟨by rw [hs0]; omega, by rw [hst, hb]; omega⟩, ?_, rfl, rfl, hb⟩
  simp only [Scanner.rest, hst, hs0, hr]
  omega

theorem grow_spec (s : Scanner) (h : s.wf) (hlen : s.buf.length < MaxScanTokenSize) :
    s.grow.wf ∧ s.grow.rest = s.rest ∧ s.grow.r = s.r ∧ s.grow.eof = s.eof
      ∧ s.grow.stop < s.grow.buf.length := by
  have h1 := h.1
  have h2 := h.2
  have hM : MaxScanTokenSize = 65536 := rfl
  have hS : startBufSize = 4096 := rfl
  have hw := length_window s h
  have hb : s.grow.buf.length
      = max (min (if s.buf.length * 2 = 0 then startBufSize else s.buf.length * 2)
          MaxScanTokenSize) (s.stop - s.start) := by
    simp only [Scanner.grow, List.length_append, List.length_replicate, hw]
    omega
  have hst : s.grow.stop = s.stop - s.start := rfl
  have hs0 : s.grow.start = 0 := rfl
  have hr : s.grow.r = s.r := rfl
  have hlt : s.stop - s.start < s.grow.buf.length := by
    rw [hb]
    split_ifs <;> omega
  refine ⟨⟨by rw [hs0]; omega, by rw [hst]; omega⟩, ?_, rfl, rfl, by rw [hst]; exact hlt⟩
  simp only [Scanner.rest, hst, hs0, hr]
  omega

theorem read_spec (s : Scanner) (h : s.wf) (hsp : s.stop < s.buf.length) (he : s.eof = false) :
    s.read.wf ∧ s.read.rest = s.rest
      ∧ (if s.read.eof = true then 1 else s.read.r.length + 2) ≤ s.r.length + 1 := by
  have h1 := h.1
  by_cases h0 : s.r.length = 0
  · have e : s.read = { s with eof := true } := by rw [Scanner.read, if_pos h0]
    rw [e]
    exact ⟨h, rfl, by simp⟩
  · have e : s.read = { s with
        buf := s.buf.take s.stop ++ s.r.take (min (s.buf.length - s.stop) s.r.length)
          ++ s.buf.drop (s.stop + min (s.buf.length - s.stop) s.r.length)
        stop := s.stop + min (s.buf.length - s.stop) s.r.length
        r := s.r.drop (min (s.buf.length - s.stop) s.r.length) } := by
      rw [Scanner.read, if_neg h0]
    rw [e]
    refine ⟨⟨?_, ?_⟩, ?_, ?_⟩
    · show s.start ≤ s.stop + min (s.buf.length - s.stop) s.r.length
      omega
    · show s.stop + min (s.buf.length - s.stop) s.r.length ≤ _
      simp only [List.length_append, List.length_take, List.length_drop]
      omega
    · simp only [Scanner.rest, List.length_drop]
      omega
    · simp only [he, List.length_drop]
      simp
      omega

/-- A call of `Scan` with its budget does not exhaust it, and a call that returns
a token has handed out at least one more byte of the input. -/
theorem Scan_spec (fuel : Nat) : ∀ (s : Scanner), s.wf →
    (if s.eof = true then 1 else s.r.length + 2) ≤ fuel →
    s.Scan fuel ≠ .fuel ∧ ∀ s1 t, s.Scan fuel = .token s1 t → s1.wf ∧ s1.rest + 1 ≤ s.rest := by
  induction fuel with
  | zero =>
    intro s _ hf
    split_ifs at hf <;> omega
  | succ f ih =>
    intro s hwf hf
    rw [Scanner.Scan]
    generalize hr : (if s.start < s.stop ∨ s.eof = true then
        ScanLines ((s.buf.drop s.start).take (s.stop - s.start)) s.eof else (0, none)) = r
    rcases r with ⟨adv, _ | len⟩
    · -- no token
      simp only
      by_cases he : s.eof = true
      · rw [if_pos he]
        exact ⟨by simp, by intro s1 t h; simp at h⟩
      · rw [if_neg he]
        have he' : s.eof = false := by simpa using he
        rw [if_neg he] at hf
        generalize hs1 : (if 0 < s.start ∧ (s.stop = s.buf.length ∨ s.buf.length / 2 < s.start)
          then s.shift else s) = s1
        have h1 : s1.wf ∧ s1.rest = s.rest ∧ s1.r = s.r ∧ s1.eof = s.eof := by
          rw [← hs1]
          split_ifs
          · obtain ⟨a, b, c, d, _⟩ := shift_spec s hwf
            exact ⟨a, b, c, d⟩
          · exact ⟨hwf, rfl, rfl, rfl⟩
        obtain ⟨w1, r1, rr1, e1⟩ := h1
        by_cases hfull : s1.stop = s1.buf.length
        · rw [if_pos hfull]
          by_cases hmax : MaxScanTokenSize ≤ s1.buf.length
          · rw [if_pos hmax]
            exact ⟨by simp, by intro s2 t h; simp at h⟩
          · rw [if_neg hmax]
            obtain ⟨w2, r2, rr2, e2, sp2⟩ := grow_spec s1 w1 (by omega)
            obtain ⟨w3, r3, f3⟩ := read_spec s1.grow w2 sp2 (by rw [e2, e1, he'])
            obtain ⟨n1, n2⟩ := ih s1.grow.read w3 (by rw [rr2, rr1] at f3; omega)
            refine ⟨n1, fun s2 t h => ?_⟩
            obtain ⟨a, b⟩ := n2 s2 t h
            exact ⟨a, by rw [r3, r2, r1] at b; exact b⟩
        · rw [if_neg hfull]
          have sp : s1.stop < s1.buf.length := lt_of_le_of_ne w1.2 hfull
          obtain ⟨w3, r3, f3⟩ := read_spec s1 w1 sp (by rw [e1, he'])
          obtain ⟨n1, n2⟩ := ih s1.read w3 (by rw [rr1] at f3; omega)
          refine ⟨n1, fun s2 t h => ?_⟩
          obtain ⟨a, b⟩ := n2 s2 t h
          exact ⟨a, by rw [r3, r1] at b; exact b⟩
    · -- a token
      simp only
      have hcond : s.start < s.stop ∨ s.eof = true := by
        by_contra hc
        rw [if_neg hc] at hr
        simp at hr
      rw [if_pos hcond] at hr
      obtain ⟨a1, a2⟩ := ScanLines_token _ _ _ _ hr
      rw [length_window s hwf] at a2
      refine ⟨by simp, fun s2 t h => ?_⟩
      simp only [ScanStep.token.injEq] at h
      obtain ⟨rfl, _⟩ := h
      have h1 := hwf.1
      have h2 := hwf.2
      refine ⟨⟨?_, h2⟩, ?_⟩
      · show s.start + adv ≤ s.stop
        omega
      · show s.r.length + (s.stop - (s.start + adv)) + 1 ≤ s.r.length + (s.stop - s.start)
        omega

/-- The scanning loop does not exhaust its budget. -/
theorem scanLoop_ne_fuel (fuel : Nat) : ∀ (s : Scanner) (toks : List Token), s.wf →
    s.rest + 1 ≤ fuel → scanLoop fuel s toks ≠ .error .fuel := by
  induction fuel with
  | zero => intro s toks _ hf; omega
  | succ f ih =>
    intro s toks hwf hf
    obtain ⟨n1, n2⟩ := Scan_spec (s.r.length + 2) s hwf (by split_ifs <;> omega)
    rw [scanLoop]
    cases hS : s.Scan (s.r.length + 2) with
    | token s1 t =>
      obtain ⟨a, b⟩ := n2 s1 t hS
      exact ih s1 _ a (by omega)
    | done s1 => simp
    | tooLong => simp
    | fuel => exact absurd hS n1

/-- Scanning ends with the lines or with `bufio.ErrTooLong`. -/
theorem scanLines_ne_fuel (input : Str) : scanLines input ≠ .error .fuel := by
  have h := scanLoop_ne_fuel (input.length + 2) (NewScanner input) []
    ⟨le_refl _, by simp [NewScanner]⟩ (by simp [Scanner.rest, NewScanner])
  rw [scanLines]
  cases hS : scanLoop (input.length + 2) (NewScanner input) [] with
  | error e =>
    intro he
    simp only [Except.error.injEq] at he
    subst he
    exact h hS
  | ok p => simp

/-! ## When the decoder fails and when it returns (C9) -/

theorem scanLoop_error (fuel : Nat) : ∀ (s : Scanner) (toks : List Token) (e : Fault),
    scanLoop fuel s toks = .error e → e = .scan ∨ e = .fuel := by
  induction fuel with
  | zero =>
    intro s toks e h
    simp only [scanLoop, Except.error.injEq] at h
    exact Or.inr h.symm
  | succ f ih =>
    intro s toks e h
    rw [scanLoop] at h
    cases hS : s.Scan (s.r.length + 2) with
    | token s1 t =>
      rw [hS] at h
      exact ih _ _ _ h
    | done s1 =>
      rw [hS] at h
      simp at h
    | tooLong =>
      rw [hS] at h
      simp only [Except.error.injEq] at h
      exact Or.inl h.symm
    | fuel =>
      rw [hS] at h
      simp only [Except.error.injEq] at h
      exact Or.inr h.symm

/-- The scanning loop of `mustRead` ends on every input: with the lines, or with the
scanner's error. -/
theorem scanLines_total (input : Str) :
    (∃ lines, scanLines input = .ok lines) ∨ scanLines input = .error .scan := by
  cases hs : scanLines input with
  | ok lines => exact Or.inl ⟨lines, rfl⟩
  | error e =>
    right
    have hne := scanLines_ne_fuel input
    rw [hs] at hne
    rw [scanLines] at hs
    cases hL : scanLoop (input.length + 2) (NewScanner input) [] with
    | ok p => rw [hL] at hs; simp at hs
    | error e2 =>
      rw [hL] at hs
      simp only [Except.error.injEq] at hs
      subst hs
      rcases scanLoop_error _ _ _ _ hL with h | h
      · rw [h]
      · rw [h] at hne
        exact absurd rfl hne

/-- C9 (amended): `mustRead` ends on every input, and it returns a recording exactly
when the scanner delivers at least one line, `json.Unmarshal` accepts the first line,
line `Cmd` of the header exists and every section range of the header is empty or
starts at a line and has a line after its end, the offsets being computed in Go
`int` arithmetic.  In every other case it panics: on the scanner's error, on the
missing first line, on the error of `json.Unmarshal`, or on an index out of range. -/
theorem mustRead_fails_iff (unmarshal : Str → Option RecordingHeader) (input : Str) :
    ((∃ rec, mustRead unmarshal input = .ok rec)
      ↔ ∃ lines l0 h, scanLines input = .ok lines ∧ lines.head? = some l0
          ∧ unmarshal l0 = some h ∧ headerInRange lines.length h)
    ∧ (mustRead unmarshal input = .error .scan ↔ scanLines input = .error .scan)
    ∧ (mustRead unmarshal input = .error .json
        ↔ ∃ lines l0, scanLines input = .ok lines ∧ lines.head? = some l0
            ∧ unmarshal l0 = none)
    ∧ (mustRead unmarshal input = .error .index
        ↔ ∃ lines, scanLines input = .ok lines
            ∧ (lines = [] ∨ ∃ l0 h, lines.head? = some l0 ∧ unmarshal l0 = some h
                ∧ ¬ headerInRange lines.length h))
    ∧ ((∃ rec, mustRead unmarshal input = .ok rec)
        ∨ mustRead unmarshal input = .error .scan
        ∨ mustRead unmarshal input = .error .json
        ∨ mustRead unmarshal input = .error .index) := by
  rcases scanLines_total input with ⟨lines, hs⟩ | hs
  · cases hl : lines with
    | nil =>
      subst hl
      have hm : mustRead unmarshal input = .error .index := by
        simp [mustRead, hs, getLine]
      simp [hm, hs]
    | cons l0 rest =>
      have hh : lines.head? = some l0 := by simp [hl]
      have g0 : getLine lines 0 = .ok l0 := by simp [getLine, hl]
      cases hu : unmarshal l0 with
      | none =>
        have hm : mustRead unmarshal input = .error .json := by
          simp only [mustRead, hs, g0, hu]
        subst hl
        simp [hm, hs, hu]
      | some h =>
        by_cases hr : headerInRange lines.length h
        · obtain ⟨rec, hm⟩ := mustRead_ok_of_inRange unmarshal input lines l0 h hs hh hu hr
          subst hl
          simp [hm, hs, hu]
          simpa using hr
        · have hm := mustRead_error_of_not_inRange unmarshal input lines l0 h hs hh hu hr
          subst hl
          simp [hm, hs, hu]
          simpa using hr
  · have hm : mustRead unmarshal input = .error .scan := by
      simp only [mustRead, hs]
    simp [hm, hs]

set_option maxRecDepth 1000000 in
/-- The outcomes of `mustRead`, evaluated one by one: no line; a first line that is no
header; a header whose `Cmd` is beyond the lines; a stdin range with no line after
its end; and a header with `Stdin` -2^63, the one `json.Unmarshal` returns on the
line below, for which `h.Stdin-1` wraps to 2^63-1, the range is empty and a
recording is returned. -/
theorem mustRead_outcomes_evaluated :
    mustRead refUnmarshal [] = .error .index
    ∧ mustRead refUnmarshal (str "x\n----\n") = .error .json
    ∧ mustRead refUnmarshal (str "\x7b\"version\":1,\"cmd\":2\x7d") = .error .index
    ∧ mustRead refUnmarshal (str "\x7b\"version\":1,\"cmd\":1,\"stdin\":1,\"stdout\":3\x7d")
        = .error .index
    ∧ wrapInt (-9223372036854775808 - 1) = 9223372036854775807
    ∧ mustRead (fun _ => some ⟨1, 1, -9223372036854775808, 0, 0, 0, 0⟩)
        (str "\x7b\"version\":1,\"cmd\":1,\"stdin\":-9223372036854775808\x7d")
        = .ok ⟨str "\x7b\"version\":1,\"cmd\":1,\"stdin\":-9223372036854775808\x7d",
            [], [], [], [], none⟩ := by
  decide!

/-! ## Decoding a written recording -/

theorem join_cons_cons (sp : Str) (b : Nat) (p : Str) (ps : List Str) :
    join sp ((b :: p) :: ps) = b :: join sp (p :: ps) := by
  cases ps <;> simp [join]

theorem join_split (c : Nat) (s : Str) : join [c] (split c s) = s := by
  induction s with
  | nil => simp [split, join]
  | cons b s ih =>
    obtain ⟨p, ps, hp⟩ := split_eq_cons c s
    by_cases hb : b = c
    · simp [split, hb, hp, join] at ih ⊢
      exact ih
    · simp only [split, hb, hp, if_false, join_cons_cons]
      rw [← hp, ih]

theorem split_join (c : Nat) (a : Str) (l : List Str) (ha : c ∉ a) (hl : ∀ x ∈ l, c ∉ x) :
    split c (join [c] (a :: l)) = a :: l := by
  induction l generalizing a with
  | nil => simp [join, split_of_not_mem c a ha]
  | cons b r ih =>
    have hb := hl b (by simp)
    have hr : ∀ x ∈ r, c ∉ x := fun x hx => hl x (List.mem_cons_of_mem _ hx)
    have : join [c] (a :: b :: r) = a ++ c :: join [c] (b :: r) := by simp [join]
    rw [this, split_append_cons, split_of_not_mem c a ha, ih b hb hr]
    simp

theorem dropCR_of_not_mem (l : Str) (h : CR ∉ l) : dropCR l = l := by
  unfold dropCR
  split_ifs with hg
  · exact absurd (List.mem_of_getLast?_eq_some hg) h
  · rfl

theorem mem_of_mem_split (c : Nat) (s : Str) : ∀ p ∈ split c s, ∀ b ∈ p, b ∈ s := by
  induction s with
  | nil => simp [split]
  | cons x s ih =>
    obtain ⟨q, qs, hq⟩ := split_eq_cons c s
    intro p hp b hb
    by_cases hx : x = c
    · simp only [split, hx, if_true, List.mem_cons] at hp
      rcases hp with rfl | hp
      · simp at hb
      · exact List.mem_cons_of_mem _ (ih p hp b hb)
    · simp only [split, hx, if_false, hq, List.mem_cons] at hp
      rcases hp with rfl | hp
      · rcases List.mem_cons.1 hb with rfl | hb
        · simp
        · exact List.mem_cons_of_mem _ (ih q (by simp [hq]) b hb)
      · exact List.mem_cons_of_mem _ (ih p (by simp [hq, hp]) b hb)

theorem map_dropCR_split (s : Str) (h : CR ∉ s) : (split LF s).map dropCR = split LF s := by
  have : ∀ p ∈ split LF s, dropCR p = id p := fun p hp =>
    dropCR_of_not_mem p (fun hc => h (mem_of_mem_split LF s p hp CR hc))
  rw [List.map_congr_left this, List.map_id]

theorem dropLineCR_of_not_mem (s : Str) (h : CR ∉ s) : dropLineCR s = s := by
  rw [dropLineCR, map_dropCR_split s h, join_split]

theorem sliceLoop_block (nx : Str) (post : List Str) (hnx : nx ≠ []) :
    ∀ (cur pre : List Str) (b : Str) (stop i : Int), stop = pre.length + cur.length →
      i = pre.length →
      sliceLoop (pre ++ cur ++ nx :: post) stop cur.length i b = .ok (b ++ join [LF] cur) := by
  intro cur
  induction cur with
  | nil => intro pre b stop i _ _; simp [sliceLoop, join]
  | cons l cur ih =>
    intro pre b stop i hstop hi
    have hl : getLine (pre ++ l :: cur ++ nx :: post) i = .ok l := by
      have : pre ++ l :: cur ++ nx :: post = pre ++ l :: (cur ++ nx :: post) := by simp
      rw [this]
      exact getLine_at _ _ _ _ hi
    have e : pre ++ l :: cur ++ nx :: post = (pre ++ [l]) ++ cur ++ nx :: post := by simp
    have hrec := ih (pre ++ [l]) (b ++ l ++ [LF]) stop (i + 1)
      (by simp at hstop ⊢; omega) (by simp; omega)
    rw [← e] at hrec
    simp only [List.length_cons, sliceLoop, hl]
    cases cur with
    | nil =>
      have hn : getLine (pre ++ [l] ++ nx :: post) (i + 1) = .ok nx :=
        getLine_at _ _ _ _ (by simp; omega)
      have hlen : nx.length ≠ 0 := fun h => hnx (List.length_eq_zero.1 h)
      have hge : ¬ (i < stop - 1) := by simp at hstop; omega
      rw [if_neg hge, hn]
      simp [sliceLoop, hlen, join]
    | cons l2 cur =>
      have hlt : i < stop - 1 := by simp at hstop; omega
      rw [if_pos hlt, hrec]
      simp [join]

theorem slice_block (pre cur post : List Str) (nx : Str) (hnx : nx ≠ []) (a b : Int)
    (ha : a = pre.length) (hb : b = pre.length + cur.length) :
    slice (pre ++ cur ++ nx :: post) a b = .ok (join [LF] cur) := by
  have : (b - a).toNat = cur.length := by omega
  rw [slice, this, sliceLoop_block nx post hnx cur pre [] b a hb ha]
  simp

theorem dashes_ne_nil : dashes ≠ [] := by decide

/-- `mustRead` on lines that are laid out as `mustWrite` lays them out, with a
header that carries the offsets of that layout. -/
theorem mustRead_of_layout (unmarshal : Str → Option RecordingHeader) (input : Str)
    (J C : Str) (I O E M : List Str) (h : RecordingHeader)
    (hs : scanLines input = .ok (layout J C I O E M)) (hu : unmarshal J = some h)
    (hCmd : h.Cmd = 3) (hStdin : h.Stdin = 5) (hStdout : h.Stdout = 6 + I.length)
    (hStderr : h.Stderr = 7 + I.length + O.length)
    (hErr : h.Err = 8 + I.length + O.length + E.length)
    (hTiming : h.Timing = 9 + I.length + O.length + E.length + M.length)
    (hT : h.Timing < 9223372036854775808) :
    mustRead unmarshal input = .ok (recordingOfLines C I O E M) := by
  have w0 : wrapInt (h.Cmd - 1) = h.Cmd - 1 := wrapInt_eq _ (by omega) (by omega)
  have w1 : wrapInt (h.Stdin - 1) = h.Stdin - 1 := wrapInt_eq _ (by omega) (by omega)
  have w2 : wrapInt (h.Stdout - 1) = h.Stdout - 1 := wrapInt_eq _ (by omega) (by omega)
  have w3 : wrapInt (h.Stderr - 1) = h.Stderr - 1 := wrapInt_eq _ (by omega) (by omega)
  have w4 : wrapInt (h.Err - 1) = h.Err - 1 := wrapInt_eq _ (by omega) (by omega)
  have v1 : wrapInt (h.Stdout - sepLen) = h.Stdout - sepLen :=
    wrapInt_eq _ (by simp only [sepLen]; omega) (by simp only [sepLen]; omega)
  have v2 : wrapInt (h.Stderr - sepLen) = h.Stderr - sepLen :=
    wrapInt_eq _ (by simp only [sepLen]; omega) (by simp only [sepLen]; omega)
  have v3 : wrapInt (h.Err - sepLen) = h.Err - sepLen :=
    wrapInt_eq _ (by simp only [sepLen]; omega) (by simp only [sepLen]; omega)
  have v4 : wrapInt (h.Timing - sepLen) = h.Timing - sepLen :=
    wrapInt_eq _ (by simp only [sepLen]; omega) (by simp only [sepLen]; omega)
  have g0 : getLine (layout J C I O E M) 0 = .ok J := by
    have : layout J C I O E M = [] ++ J :: ([dashes, C, dashes] ++ I ++ [dashes] ++ O ++ [dashes]
        ++ E ++ [dashes] ++ M ++ [dashes, timingText]) := by simp [layout]
    rw [this]; exact getLine_at _ _ _ _ (by simp)
  have g2 : getLine (layout J C I O E M) (h.Cmd - 1) = .ok C := by
    have : layout J C I O E M = [J, dashes] ++ C :: ([dashes] ++ I ++ [dashes] ++ O ++ [dashes]
        ++ E ++ [dashes] ++ M ++ [dashes, timingText]) := by simp [layout]
    rw [this]; exact getLine_at _ _ _ _ (by simp [hCmd])
  have s1 : slice (layout J C I O E M) (h.Stdin - 1) (h.Stdout - sepLen) = .ok (join [LF] I) := by
    have : layout J C I O E M = [J, dashes, C, dashes] ++ I ++ dashes :: (O ++ [dashes]
        ++ E ++ [dashes] ++ M ++ [dashes, timingText]) := by simp [layout]
    rw [this]
    exact slice_block _ _ _ _ dashes_ne_nil _ _ (by simp [hStdin]) (by simp [hStdout, sepLen]; omega)
  have s2 : slice (layout J C I O E M) (h.Stdout - 1) (h.Stderr - sepLen) = .ok (join [LF] O) := by
    have : layout J C I O E M = ([J, dashes, C, dashes] ++ I ++ [dashes]) ++ O ++ dashes ::
        (E ++ [dashes] ++ M ++ [dashes, timingText]) := by simp [layout]
    rw [this]
    exact slice_block _ _ _ _ dashes_ne_nil _ _ (by simp [hStdout]; omega)
      (by simp [hStderr, sepLen]; omega)
  have s3 : slice (layout J C I O E M) (h.Stderr - 1) (h.Err - sepLen) = .ok (join [LF] E) := by
    have : layout J C I O E M = ([J, dashes, C, dashes] ++ I ++ [dashes] ++ O ++ [dashes]) ++ E
        ++ dashes :: (M ++ [dashes, timingText]) := by simp [layout]
    rw [this]
    exact slice_block _ _ _ _ dashes_ne_nil _ _ (by simp [hStderr]; omega)
      (by simp [hErr, sepLen]; omega)
  have s4 : slice (layout J C I O E M) (h.Err - 1) (h.Timing - sepLen) = .ok (join [LF] M) := by
    have : layout J C I O E M = ([J, dashes, C, dashes] ++ I ++ [dashes] ++ O ++ [dashes] ++ E
        ++ [dashes]) ++ M ++ dashes :: [timingText] := by simp [layout]
    rw [this]
    exact slice_block _ _ _ _ dashes_ne_nil _ _ (by simp [hErr]; omega)
      (by simp [hTiming, sepLen]; omega)
  obtain ⟨p, ps, hp⟩ := split_eq_cons SP C
  simp only [mustRead, hs, g0, hu, w0, w1, w2, w3, w4, v1, v2, v3, v4, g2, hp, s1, s2, s3, s4,
    recordingOfLines]
  simp

theorem layout_eq_append (J C : Str) (I O E M : List Str) :
    layout J C I O E M = ([J, dashes, C, dashes] ++ I ++ [dashes] ++ O ++ [dashes] ++ E
      ++ [dashes] ++ M ++ [dashes]) ++ [timingText] := by
  simp [layout]

theorem getLast?_layout (J C : Str) (I O E M : List Str) :
    (layout J C I O E M).getLast? = some timingText := by
  rw [layout_eq_append, List.getLast?_append]
  simp

theorem map_dropCR_layout (J C : Str) (I O E M : List Str) :
    (layout J C I O E M).map dropCR
      = layout (dropCR J) (dropCR C) (I.map dropCR) (O.map dropCR) (E.map dropCR)
          (M.map dropCR) := by
  have hd : dropCR dashes = dashes := by decide
  have ht : dropCR timingText = timingText := by decide
  simp [layout, hd, ht]

theorem afterLast_mustWrite (rec : recording) (hc : LF ∉ cmdLine rec) :
    afterLast LF (mustWrite rec) = timingText := by
  rw [afterLast, split_mustWrite rec hc, getLast?_layout]
  rfl

theorem textLines_mustWrite (rec : recording) (hc : LF ∉ cmdLine rec) :
    textLines (mustWrite rec)
      = layout (jsonMarshal (header rec)) (dropCR (cmdLine rec))
          ((split LF rec.stdin).map dropCR) ((split LF rec.stdout).map dropCR)
          ((split LF rec.stderr).map dropCR) ((split LF (errStr rec)).map dropCR) := by
  have hne : ¬ (some timingText = some ([] : Str)) := by decide
  rw [textLines, split_mustWrite rec hc, getLast?_layout, if_neg hne, map_dropCR_layout,
    dropCR_of_not_mem _ (CR_not_mem_jsonMarshal _)]

/-- The lines `mustRead` gets from a written recording of at most 2064 bytes. -/
theorem scanLines_mustWrite (rec : recording) (hc : LF ∉ cmdLine rec)
    (hsize : (mustWrite rec).length ≤ 2064) :
    scanLines (mustWrite rec)
      = .ok (layout (jsonMarshal (header rec)) (dropCR (cmdLine rec))
          ((split LF rec.stdin).map dropCR) ((split LF rec.stdout).map dropCR)
          ((split LF rec.stderr).map dropCR) ((split LF (errStr rec)).map dropCR)) := by
  have ht : timingText.length = 16 := by decide
  rw [scanLines_of_short (mustWrite rec) (by simp [startBufSize]; omega)
    (by
      intro _
      rw [afterLast_mustWrite rec hc, ht]
      simp [startBufSize]
      omega),
    textLines_mustWrite rec hc]

theorem header_Timing_le (rec : recording) :
    (header rec).Timing ≤ 13 + ((mustWrite rec).length : Int) := by
  have h1 := count_le_length LF rec.stdin
  have h2 := count_le_length LF rec.stdout
  have h3 := count_le_length LF rec.stderr
  have h4 := count_le_length LF (errStr rec)
  simp only [header, sepLen, mustWrite, List.length_append]
  omega

/-- Decoding a written recording of at most 2064 bytes: the command line is split
at the spaces and every text comes back without the carriage returns at its line
ends. -/
theorem mustRead_mustWrite_short (unmarshal : Str → Option RecordingHeader) (rec : recording)
    (hu : unmarshal (jsonMarshal (header rec)) = some (header rec))
    (hc : LF ∉ cmdLine rec) (hsize : (mustWrite rec).length ≤ 2064) :
    mustRead unmarshal (mustWrite rec)
      = .ok { cmd := (split SP (dropCR (cmdLine rec))).headD []
              args := (split SP (dropCR (cmdLine rec))).tail
              stdin := dropLineCR rec.stdin
              stdout := dropLineCR rec.stdout
              stderr := dropLineCR rec.stderr
              err := if dropLineCR (errStr rec) = [] then none
                     else some (dropLineCR (errStr rec)) } := by
  have := mustRead_of_layout unmarshal (mustWrite rec) _ _ _ _ _ _ (header rec)
    (scanLines_mustWrite rec hc hsize) hu (by simp [header, sepLen])
    (by simp [header, sepLen])
    (by simp [header, sepLen, length_split]; omega)
    (by simp [header, sepLen, length_split]; omega)
    (by simp [header, sepLen, length_split]; omega)
    (by simp [header, sepLen, length_split]; omega)
    (by have := header_Timing_le rec; omega)
  rw [this]
  rfl

theorem not_mem_cmdLine (c : Nat) (rec : recording) (hsp : c ≠ SP) (hcmd : c ∉ rec.cmd)
    (hargs : ∀ a ∈ rec.args, c ∉ a) : c ∉ cmdLine rec := by
  apply not_mem_join
  · simpa using hsp
  · intro a ha
    rcases List.mem_cons.1 ha with rfl | ha
    · exact hcmd
    · exact hargs a ha

/-- Round trip below the size at which the scanner moves its buffer: a recording
whose file has at most 2064 bytes, whose cmd and args contain no space, LF or CR,
whose texts contain no CR and whose error, if any, has a non-empty message without
CR, is decoded as it was written. -/
theorem mustRead_mustWrite_eq_of_short (unmarshal : Str → Option RecordingHeader)
    (rec : recording) (hu : unmarshal (jsonMarshal (header rec)) = some (header rec))
    (hsize : (mustWrite rec).length ≤ 2064)
    (hcmd : SP ∉ rec.cmd ∧ LF ∉ rec.cmd ∧ CR ∉ rec.cmd)
    (hargs : ∀ a ∈ rec.args, SP ∉ a ∧ LF ∉ a ∧ CR ∉ a)
    (hin : CR ∉ rec.stdin) (hout : CR ∉ rec.stdout) (herr : CR ∉ rec.stderr)
    (hmsg : ∀ m, rec.err = some m → m ≠ [] ∧ CR ∉ m) :
    mustRead unmarshal (mustWrite rec) = .ok rec := by
  have hLF : LF ∉ cmdLine rec :=
    not_mem_cmdLine LF rec (by decide) hcmd.2.1 (fun a ha => (hargs a ha).2.1)
  have hCR : CR ∉ cmdLine rec :=
    not_mem_cmdLine CR rec (by decide) hcmd.2.2 (fun a ha => (hargs a ha).2.2)
  have hm : CR ∉ errStr rec := by
    unfold errStr
    cases he : rec.err with
    | none => simp
    | some m => exact (hmsg m he).2
  rw [mustRead_mustWrite_short unmarshal rec hu hLF hsize, dropCR_of_not_mem _ hCR,
    dropLineCR_of_not_mem _ hin, dropLineCR_of_not_mem _ hout, dropLineCR_of_not_mem _ herr,
    dropLineCR_of_not_mem _ hm, cmdLine,
    split_join SP rec.cmd rec.args hcmd.1 (fun a ha => (hargs a ha).1)]
  have he : (if errStr rec = [] then none else some (errStr rec)) = rec.err := by
    unfold errStr
    cases he : rec.err with
    | none => simp
    | some m => simp [(hmsg m he).1]
  rw [he]
  rfl

/-- Error reconstruction below that size: the decoded err is nil exactly when the
error text is empty, and otherwise carries the text. -/
theorem mustRead_err_of_short (unmarshal : Str → Option RecordingHeader)
    (rec : recording) (hu : unmarshal (jsonMarshal (header rec)) = some (header rec))
    (hsize : (mustWrite rec).length ≤ 2064) (hc : LF ∉ cmdLine rec)
    (hm : CR ∉ errStr rec) :
    (mustRead unmarshal (mustWrite rec)).map recording.err
      = .ok (if errStr rec = [] then none else some (errStr rec)) := by
  rw [mustRead_mustWrite_short unmarshal rec hu hc hsize, dropLineCR_of_not_mem _ hm]
  rfl

/-- The command line below that size: the decoded cmd and args are the pieces of
the joined command line between its spaces. -/
theorem mustRead_cmd_args_of_short (unmarshal : Str → Option RecordingHeader)
    (rec : recording) (hu : unmarshal (jsonMarshal (header rec)) = some (header rec))
    (hsize : (mustWrite rec).length ≤ 2064)
    (hcmd : LF ∉ rec.cmd ∧ CR ∉ rec.cmd) (hargs : ∀ a ∈ rec.args, LF ∉ a ∧ CR ∉ a) :
    (mustRead unmarshal (mustWrite rec)).map (fun r => r.cmd :: r.args)
      = .ok (split SP (join [SP] (rec.cmd :: rec.args))) := by
  have hLF : LF ∉ cmdLine rec :=
    not_mem_cmdLine LF rec (by decide) hcmd.1 (fun a ha => (hargs a ha).1)
  have hCR : CR ∉ cmdLine rec :=
    not_mem_cmdLine CR rec (by decide) hcmd.2 (fun a ha => (hargs a ha).2)
  rw [mustRead_mustWrite_short unmarshal rec hu hLF hsize, dropCR_of_not_mem _ hCR, cmdLine]
  obtain ⟨p, ps, hp⟩ := split_eq_cons SP (join [SP] (rec.cmd :: rec.args))
  simp [Except.map, hp]

/-- Record then playback below that size: when the file written for the run has at
most 2064 bytes, the playback run on the same directory with the same stdin, cmd
and args returns the stdout, stderr and err of the live run. -/
theorem playback_after_record_of_short (e : Env) (Dir : Str) (fs : Files)
    (options options2 : Option Opt) (stdin cmd : Str) (args : List Str)
    (hu : e.unmarshal (jsonMarshal (header ⟨cmd, args, stdin,
      (e.run options stdin cmd args).stdout, (e.run options stdin cmd args).stderr,
      (e.run options stdin cmd args).err⟩))
      = some (header ⟨cmd, args, stdin, (e.run options stdin cmd args).stdout,
        (e.run options stdin cmd args).stderr, (e.run options stdin cmd args).err⟩))
    (hsize : (mustWrite ⟨cmd, args, stdin, (e.run options stdin cmd args).stdout,
      (e.run options stdin cmd args).stderr, (e.run options stdin cmd args).err⟩).length ≤ 2064)
    (hcmd : LF ∉ cmd) (hargs : ∀ a ∈ args, LF ∉ a)
    (hout : CR ∉ (e.run options stdin cmd args).stdout)
    (herr : CR ∉ (e.run options stdin cmd args).stderr)
    (hmsg : ∀ m, (e.run options stdin cmd args).err = some m → m ≠ [] ∧ CR ∉ m) :
    (RunRecord.Run e Dir fs options stdin cmd args).2 = e.run options stdin cmd args
    ∧ RunPlayback.Run e Dir (RunRecord.Run e Dir fs options stdin cmd args).1 options2
        stdin cmd args = .ok (e.run options stdin cmd args) := by
  refine ⟨rfl, ?_⟩
  generalize hres : e.run options stdin cmd args = res at hu hsize hout herr hmsg
  have hLF : LF ∉ cmdLine ⟨cmd, args, stdin, res.stdout, res.stderr, res.err⟩ :=
    not_mem_cmdLine LF _ (by decide) hcmd hargs
  have hm : CR ∉ errStr ⟨cmd, args, stdin, res.stdout, res.stderr, res.err⟩ := by
    unfold errStr
    cases he : res.err with
    | none => simp
    | some m => exact (hmsg m he).2
  have he : (if errStr ⟨cmd, args, stdin, res.stdout, res.stderr, res.err⟩ = [] then none
      else some (errStr ⟨cmd, args, stdin, res.stdout, res.stderr, res.err⟩)) = res.err := by
    unfold errStr
    cases he : res.err with
    | none => simp
    | some m => simp [(hmsg m he).1]
  simp only [RunPlayback.Run, RunRecord.Run, RunRecord.mustRecord, hres, Function.update_same]
  rw [mustRead_mustWrite_short e.unmarshal _ hu hLF hsize]
  simp only [dropLineCR_of_not_mem _ hout, dropLineCR_of_not_mem _ herr,
    dropLineCR_of_not_mem _ hm, he]

/-! ## The scanner on an input whose last line starts in the second half of the buffer

Before it reads on, `Scan` copies the last line to the front of the buffer, over
the bytes of the first line. -/

/-- A call of `Scan` on a last line without line feed that starts beyond the middle
of the buffer: the line is moved to the front and then returned. -/
theorem Scan_last_shift (f : Nat) (B : Str) (k n : Nat) (R : List Str) (l : Str)
    (hB : (B.drop k).take (n - k) = l) (hl : LF ∉ l) (hne : l ≠ []) (hk : k < n)
    (hn : n < B.length) (hhalf : B.length / 2 < k) :
    Scanner.Scan (f + 2) ⟨[], B, k, n, false, R⟩
      = .token ⟨[], l ++ B.drop l.length, l.length, l.length, true, R⟩
          ⟨R.length, 0, (dropCR l).length⟩ := by
  have hpos : 0 < k := by omega
  have hlen : l.length = n - k := by
    rw [← hB, List.length_take, List.length_drop]
    omega
  have hn' : n ≠ B.length := by omega
  have hfull : n - k ≠ (l ++ B.drop (n - k)).length := by
    rw [List.length_append, List.length_drop]
    omega
  have hw : (l ++ B.drop (n - k)).take (n - k) = l := by
    rw [← hlen]
    simp
  have hfull2 : n - k ≠ n - k + (B.length - (n - k)) := by omega
  have hfull3 : ¬ (n - k = n - k + (B.length - (n - k))) := hfull2
  simp [Scanner.Scan, hk, hB, ScanLines_partial l hl, hpos, hhalf, hn', Scanner.shift,
    Scanner.read, hfull, hfull3, hw, ScanLines_last l hl hne, hlen]

/-- The buffer at the end of the scanning loop. -/
theorem scanLoop_finalBuf (m : Nat) : ∀ (data pre pad : Str) (R : List Str)
    (toks : List Token) (fuel : Nat), data.length ≤ m →
    pre.length + data.length < (pre ++ data ++ pad).length →
    count LF data + 2 ≤ fuel →
    ∃ s nt, scanLoop fuel ⟨[], pre ++ data ++ pad, pre.length, pre.length + data.length,
        false, R⟩ toks = .ok (s, toks ++ nt)
      ∧ s.retired = R
      ∧ s.buf = finalBuf (pre ++ data ++ pad) (pre.length + data.length) (afterLast LF data) := by
  induction m with
  | zero =>
    intro data pre pad R toks fuel hm hcap hfuel
    have hd : data = [] := List.length_eq_zero.1 (by omega)
    subst hd
    obtain ⟨f, rfl⟩ : ∃ f, fuel = f + 1 := ⟨fuel - 1, by omega⟩
    refine ⟨⟨[], pre ++ [] ++ pad, 0, 0, true, R⟩, [], ?_, rfl, ?_⟩
    · have := Scan_done 0 (pre ++ [] ++ pad) (pre.length + ([] : Str).length) R false hcap
      simp only [scanLoop]
      simp only [List.length_nil, Nat.zero_add, Nat.add_zero] at this ⊢
      rw [this]
      simp
    · have : afterLast LF [] = [] := by decide
      simp [finalBuf, this]
  | succ m ih =>
    intro data pre pad R toks fuel hm hcap hfuel
    rcases line_cases data with hfree | ⟨l, rest, hd, hl⟩
    · by_cases hne : data = []
      · exact ih data pre pad R toks fuel (by simp [hne]) hcap hfuel
      · obtain ⟨f, rfl⟩ : ∃ f, fuel = f + 2 := ⟨fuel - 2, by omega⟩
        have hpos : 0 < data.length := List.length_pos.2 hne
        rw [afterLast_of_not_mem LF data hfree]
        by_cases hhalf : (pre ++ data ++ pad).length / 2 < pre.length
        · have h1 := Scan_last_shift 0 (pre ++ data ++ pad) pre.length
            (pre.length + data.length) R data (window pre data pad) hfree hne (by omega) hcap
            hhalf
          have h2 := Scan_done 0 (data ++ (pre ++ data ++ pad).drop data.length) data.length R
            true (by
              rw [List.length_append, List.length_drop]
              omega)
          refine ⟨⟨[], data ++ (pre ++ data ++ pad).drop data.length, 0, 0, true, R⟩,
            [⟨R.length, 0, (dropCR data).length⟩], ?_, rfl, ?_⟩
          · simp only [scanLoop, List.length_nil, Nat.zero_add]
            rw [h1]
            simp only [List.length_nil, Nat.zero_add]
            rw [h2]
          · have : (pre ++ data ++ pad).length / 2 < pre.length + data.length - data.length := by
              omega
            simp only [finalBuf]
            rw [if_pos ⟨hne, this⟩]
        · have h1 := Scan_last 0 (pre ++ data ++ pad) pre.length (pre.length + data.length) R
            data (window pre data pad) hfree hne (by omega) hcap (by omega)
          have h2 := Scan_done 0 (pre ++ data ++ pad) (pre.length + data.length) R true hcap
          refine ⟨⟨[], pre ++ data ++ pad, 0, 0, true, R⟩,
            [⟨R.length, pre.length, (dropCR data).length⟩], ?_, rfl, ?_⟩
          · simp only [scanLoop, List.length_nil, Nat.zero_add]
            rw [h1]
            simp only [List.length_nil, Nat.zero_add]
            rw [h2]
          · have : ¬ ((pre ++ data ++ pad).length / 2 < pre.length + data.length - data.length) := by
              omega
            simp only [finalBuf]
            rw [if_neg (fun h => this h.2)]
    · subst hd
      obtain ⟨f, rfl⟩ : ∃ f, fuel = f + 1 := ⟨fuel - 1, by omega⟩
      have h1 := Scan_line 1 (pre ++ (l ++ LF :: rest) ++ pad) pre.length
        (pre.length + (l ++ LF :: rest).length) R l rest (window pre _ pad) hl
        (by simp)
      have eB : pre ++ (l ++ LF :: rest) ++ pad = (pre ++ l ++ [LF]) ++ rest ++ pad := by
        simp [List.append_assoc]
      have ek : pre.length + (l.length + 1) = (pre ++ l ++ [LF]).length := by
        simp
      have en : pre.length + (l ++ LF :: rest).length = (pre ++ l ++ [LF]).length + rest.length := by
        simp; omega
      have hcount := count_append_cons LF l rest hl
      obtain ⟨s, nt, hs, hret, hbuf⟩ := ih rest (pre ++ l ++ [LF]) pad R
        (toks ++ [⟨R.length, pre.length, (dropCR l).length⟩]) f
        (by simp at hm; omega) (by rw [← eB, ← en]; exact hcap) (by omega)
      refine ⟨s, ⟨R.length, pre.length, (dropCR l).length⟩ :: nt, ?_, hret, ?_⟩
      · simp only [scanLoop, List.length_nil, Nat.zero_add]
        rw [h1]
        simp only
        rw [ek, en, eB, hs]
        simp
      · rw [hbuf, afterLast_line, eB, en]

theorem length_jsonMarshal_ge (h : RecordingHeader) : 16 ≤ (jsonMarshal h).length := by
  have : 10 ≤ (jsonField true "version" h.Version).length := by
    simp [jsonField, str]
  have : 7 ≤ (jsonField false "cmd" h.Cmd).length := by
    simp [jsonField, str]
  simp only [jsonMarshal, List.length_append]
  omega

theorem mustWrite_eq_line (rec : recording) :
    ∃ rest, mustWrite rec = jsonMarshal (header rec) ++ LF :: rest
      ∧ afterLast LF rest = afterLast LF (mustWrite rec) := by
  refine ⟨dashes ++ [LF] ++ cmdLine rec ++ sep ++ rec.stdin ++ sep ++ rec.stdout ++ sep
    ++ rec.stderr ++ sep ++ errStr rec ++ sep ++ timingText, ?_, ?_⟩
  · simp [mustWrite, sep_eq, List.append_assoc]
  · have : mustWrite rec = jsonMarshal (header rec) ++ LF :: (dashes ++ [LF] ++ cmdLine rec
        ++ sep ++ rec.stdin ++ sep ++ rec.stdout ++ sep ++ rec.stderr ++ sep ++ errStr rec
        ++ sep ++ timingText) := by
      simp [mustWrite, sep_eq, List.append_assoc]
    rw [this, afterLast_line]

/-- The lines `mustRead` gets from a written recording of more than 2064 and fewer
than 4096 bytes: the first of them is not the header line any more, its first 16
bytes are the timing placeholder. -/
theorem scanLines_mustWrite_long (rec : recording) (hc : LF ∉ cmdLine rec)
    (h1 : 2064 < (mustWrite rec).length) (h2 : (mustWrite rec).length < 4096) :
    ∃ ls, scanLines (mustWrite rec)
      = .ok ((timingText ++ (jsonMarshal (header rec)).drop 16) :: ls) := by
  obtain ⟨rest, hin, hlast⟩ := mustWrite_eq_line rec
  rw [afterLast_mustWrite rec hc] at hlast
  generalize hinput : mustWrite rec = input at hin h1 h2
  have hJ := LF_not_mem_jsonMarshal (header rec)
  have hJlen := length_jsonMarshal_ge (header rec)
  have hJcr := CR_not_mem_jsonMarshal (header rec)
  generalize jsonMarshal (header rec) = J at hin hJ hJlen hJcr
  have hne : input ≠ [] := by rw [hin]; simp
  have hn : input.length < startBufSize := by simpa [startBufSize] using h2
  have hB : ([] ++ input ++ (List.replicate startBufSize 0).drop input.length).length
      = startBufSize := by
    simp; omega
  have hpos : 0 < input.length := List.length_pos.2 hne
  -- the first call of `Scan`
  have hfirst : Scanner.Scan (input.length + 2) (NewScanner input)
      = Scanner.Scan 2 ⟨[], [] ++ input ++ (List.replicate startBufSize 0).drop input.length,
        ([] : Str).length, ([] : Str).length + input.length, false, [[]]⟩ := by
    rw [Scan_first input (input.length + 1) hne hn,
      Scan_line input.length _ _ _ _ J rest (by rw [window [] input _]; exact hin) hJ
        (by simp; omega),
      Scan_line 1 _ _ _ _ J rest (by rw [window [] input _]; exact hin) hJ (by simp; omega)]
  have hstep := Scan_line 1 ([] ++ input ++ (List.replicate startBufSize 0).drop input.length)
    ([] : Str).length (([] : Str).length + input.length) [[]] J rest
    (by rw [window [] input _]; exact hin) hJ (by simp; omega)
  have eB : [] ++ input ++ (List.replicate startBufSize 0).drop input.length
      = (J ++ [LF]) ++ rest ++ (List.replicate startBufSize 0).drop input.length := by
    rw [hin]; simp [List.append_assoc]
  have ek : ([] : Str).length + (J.length + 1) = (J ++ [LF]).length := by simp
  have en : ([] : Str).length + input.length = (J ++ [LF]).length + rest.length := by
    rw [hin]; simp; omega
  obtain ⟨s, nt, hs, hret, hbuf⟩ := scanLoop_finalBuf rest.length rest (J ++ [LF])
    ((List.replicate startBufSize 0).drop input.length) [[]]
    ([] ++ [⟨([[]] : List Str).length, ([] : Str).length, (dropCR J).length⟩])
    (input.length + 1) (le_refl _)
    (by rw [← eB, ← en, hB]; simpa using hn)
    (by
      have := count_le_length LF rest
      have : rest.length < input.length := by rw [hin]; simp; omega
      omega)
  have hloop : scanLoop (input.length + 2) (NewScanner input) []
      = .ok (s, [] ++ [⟨([[]] : List Str).length, ([] : Str).length, (dropCR J).length⟩] ++ nt) := by
    have e : (NewScanner input).r.length = input.length := rfl
    rw [← hs]
    simp only [scanLoop, e]
    rw [hfirst, hstep]
    simp only
    rw [ek, en, eB]
  have ht : timingText.length = 16 := by decide
  have hfb : s.buf = timingText
      ++ ((J ++ [LF]) ++ rest ++ (List.replicate startBufSize 0).drop input.length).drop 16 := by
    rw [hbuf, hlast, finalBuf, ← eB, hB, ← en, ht]
    have : timingText ≠ [] ∧ startBufSize / 2 < ([] : Str).length + input.length - 16 := by
      refine ⟨by decide, ?_⟩
      simp [startBufSize]
      omega
    rw [if_pos this]
  refine ⟨nt.map (Token.bytes (s.retired ++ [s.buf])), ?_⟩
  rw [scanLines, hloop]
  simp only [List.nil_append, List.singleton_append, List.map_cons, Except.ok.injEq,
    List.cons.injEq, and_true]
  rw [hret, hfb, dropCR_of_not_mem J hJcr]
  have e1 : ((J ++ [LF]) ++ rest ++ (List.replicate startBufSize 0).drop input.length).drop 16
      = J.drop 16 ++ ([LF] ++ rest ++ (List.replicate startBufSize 0).drop input.length) := by
    rw [List.append_assoc, List.append_assoc, List.drop_append_of_le_length hJlen]
    simp
  have e2 : (timingText ++ J.drop 16).length = J.length := by
    rw [List.length_append, ht, List.length_drop]
    omega
  rw [e1, ← List.append_assoc timingText]
  simp only [Token.bytes, List.length_singleton, List.length_nil]
  have e3 : ([[]] ++ [timingText ++ J.drop 16
      ++ ([LF] ++ rest ++ (List.replicate startBufSize 0).drop input.length)]).getD 1 []
      = timingText ++ J.drop 16
      ++ ([LF] ++ rest ++ (List.replicate startBufSize 0).drop input.length) := rfl
  rw [e3, List.drop_zero, ← e2, List.take_left']
  rfl

/-- Decoding a written recording of more than 2064 and fewer than 4096 bytes
panics: the line handed to `json.Unmarshal` starts with the `t` of `timing`. -/
theorem mustRead_mustWrite_panics_of_long (unmarshal : Str → Option RecordingHeader)
    (hrej : ∀ l : Str, l.head? = some 116 → unmarshal l = none) (rec : recording)
    (hc : LF ∉ cmdLine rec) (h1 : 2064 < (mustWrite rec).length)
    (h2 : (mustWrite rec).length < 4096) :
    mustRead unmarshal (mustWrite rec) = .error .json := by
  obtain ⟨ls, hs⟩ := scanLines_mustWrite_long rec hc h1 h2
  have hu : unmarshal (timingText ++ (jsonMarshal (header rec)).drop 16) = none :=
    hrej _ (by simp [timingText, str])
  simp [mustRead, hs, getLine, hu]

theorem refUnmarshal_rejects (l : Str) (h : l.head? ≠ some 123) : refUnmarshal l = none := by
  have : stripPrefix (str "\x7b") l = none := by
    cases l with
    | nil => rfl
    | cons b r =>
      have hb : ¬ (123 = b) := fun e => h (by simp [e])
      simp [str, stripPrefix, hb]
  simp [refUnmarshal, this]

/-- With the reference decoder: every written recording of more than 2064 and fewer
than 4096 bytes fails to decode. -/
theorem mustRead_refUnmarshal_panics_of_long (rec : recording)
    (hc : LF ∉ cmdLine rec) (h1 : 2064 < (mustWrite rec).length)
    (h2 : (mustWrite rec).length < 4096) :
    mustRead refUnmarshal (mustWrite rec) = .error .json :=
  mustRead_mustWrite_panics_of_long refUnmarshal
    (fun l hl => refUnmarshal_rejects l (by rw [hl]; decide)) rec hc h1 h2

/-- With the reference decoder: the round trip of every written recording of at
most 2064 bytes, under the conditions on its fields. -/
theorem mustRead_refUnmarshal_eq_of_short (rec : recording)
    (hsize : (mustWrite rec).length ≤ 2064)
    (hcmd : SP ∉ rec.cmd ∧ LF ∉ rec.cmd ∧ CR ∉ rec.cmd)
    (hargs : ∀ a ∈ rec.args, SP ∉ a ∧ LF ∉ a ∧ CR ∉ a)
    (hin : CR ∉ rec.stdin) (hout : CR ∉ rec.stdout) (herr : CR ∉ rec.stderr)
    (hmsg : ∀ m, rec.err = some m → m ≠ [] ∧ CR ∉ m) :
    mustRead refUnmarshal (mustWrite rec) = .ok rec :=
  mustRead_mustWrite_eq_of_short refUnmarshal rec (refUnmarshal_header rec) hsize hcmd hargs
    hin hout herr hmsg

/-! ## The codec on concrete recordings (C1, C2, C8, C10)

The recordings of `TestRecording` and the runs of `TestRunRecordAndPlayback` are
decoded as written.  A recording whose file is longer than 2064 bytes is not: the
last line of the file then starts beyond the middle of the 4096-byte buffer of the
scanner, `Scan` moves it to the front of the buffer before reading on, and that
overwrites the first 16 bytes of the header line kept in `lines[0]`. -/

set_option maxRecDepth 1000000 in
theorem TestRecording_passes :
    mustRead refUnmarshal (mustWrite ⟨str "command", [str "1", str "2", str "3"],
        str "single line with LF\n", str "double line\nwith LF\n", str "\n", none⟩)
      = .ok ⟨str "command", [str "1", str "2", str "3"],
        str "single line with LF\n", str "double line\nwith LF\n", str "\n", none⟩
    ∧ mustRead refUnmarshal (mustWrite ⟨str "command", [str "1", str "2", str "3"],
        str "single line without LF", str "double line\nwithout LF", str "", none⟩)
      = .ok ⟨str "command", [str "1", str "2", str "3"],
        str "single line without LF", str "double line\nwithout LF", str "", none⟩
    ∧ mustRead refUnmarshal (mustWrite ⟨str "command", [], [], [], str "clstrfck",
        some (str "exit 1: clstrfck")⟩)
      = .ok ⟨str "command", [], [], [], str "clstrfck", some (str "exit 1: clstrfck")⟩ := by
  decide!

set_option maxRecDepth 1000000 in
/-- C1 (fails on the code): the recording of a command that printed 2000 bytes is
written as a file of 2133 bytes; reading it back panics, because the first line the
scanner handed out has become `timing JSON TODOd":3,...`, which is no JSON. -/
theorem roundtrip_panics_on_2000_bytes_of_stdout :
    (mustWrite ⟨str "command", [], [], List.replicate 2000 97, [], none⟩).length = 2133
    ∧ (scanLines (mustWrite ⟨str "command", [], [], List.replicate 2000 97, [], none⟩)).map
        List.head? = .ok (some (str
          "timing JSON TODOd\":3,\"stdin\":5,\"stdout\":7,\"stderr\":9,\"err\":11,\"timing\":13\x7d"))
    ∧ mustRead refUnmarshal
        (mustWrite ⟨str "command", [], [], List.replicate 2000 97, [], none⟩)
      = .error .json := by
  decide!

set_option maxRecDepth 1000000 in
theorem TestRunRecordAndPlayback_passes :
    RunPlayback.Run (evalEnv ⟨str "hello world", [], none⟩) (str "/tmp/rec")
        (RunRecord.Run (evalEnv ⟨str "hello world", [], none⟩) (str "/tmp/rec") noFiles none
          [] (str "echo") [str "-n", str "hello world"]).1
        none [] (str "echo") [str "-n", str "hello world"]
      = .ok ⟨str "hello world", [], none⟩
    ∧ RunPlayback.Run (evalEnv ⟨[], str "ls: cannot access\n", some (str "ls: exit status 2\n")⟩)
        (str "/tmp/rec")
        (RunRecord.Run (evalEnv ⟨[], str "ls: cannot access\n", some (str "ls: exit status 2\n")⟩)
          (str "/tmp/rec") noFiles none [] (str "ls") [str "nonexisting"]).1
        none [] (str "ls") [str "nonexisting"]
      = .ok ⟨[], str "ls: cannot access\n", some (str "ls: exit status 2\n")⟩ := by
  decide!

set_option maxRecDepth 1000000 in
/-- C2 (fails on the code): a run of `cat big.txt` that printed 2000 bytes is
recorded, the record run returns the live result, and the playback run on the
same directory with the same inputs panics. -/
theorem playback_panics_after_record_of_2000_bytes :
    (RunRecord.Run (evalEnv ⟨List.replicate 2000 97, [], none⟩) (str "/tmp/rec") noFiles none
        [] (str "cat") [str "big.txt"]).2 = ⟨List.replicate 2000 97, [], none⟩
    ∧ RunPlayback.Run (evalEnv ⟨List.replicate 2000 97, [], none⟩) (str "/tmp/rec")
        (RunRecord.Run (evalEnv ⟨List.replicate 2000 97, [], none⟩) (str "/tmp/rec") noFiles none
          [] (str "cat") [str "big.txt"]).1
        none [] (str "cat") [str "big.txt"]
      = .error .json := by
  decide!

set_option maxRecDepth 1000000 in
/-- C8 (fails on the code): for a recording with 2000 bytes of stderr and the
error `exit status 2`, `mustRead` returns no recording, hence no error value. -/
theorem error_not_reconstructed_on_2000_bytes_of_stderr :
    mustRead refUnmarshal (mustWrite ⟨str "ls", [str "-R"], [], [], List.replicate 2000 101,
        some (str "exit status 2")⟩)
      = .error .json := by
  decide!

set_option maxRecDepth 1000000 in
/-- C10 (fails on the code): for a recording with the argument `hello world` and
2000 bytes of stdout, `mustRead` returns no recording, hence no cmd and args. -/
theorem command_line_not_decoded_on_2000_bytes_of_stdout :
    mustRead refUnmarshal (mustWrite ⟨str "echo", [str "hello world"], [],
        List.replicate 2000 111, [], none⟩)
      = .error .json := by
  decide!

/-! ## The written bytes and the header (C11, C14) -/

theorem join_eq_intercalate (sp : Str) (l : List Str) : join sp l = sp.intercalate l := by
  induction l with
  | nil => rfl
  | cons a l ih =>
    cases l with
    | nil => simp [join, List.intercalate]
    | cons b r =>
      simp only [join, ih, List.intercalate, List.intersperse_cons₂, List.flatten_cons,
        List.append_assoc]

/-- C11: the bytes written by `mustWrite` are the header, the command line, stdin,
stdout, stderr and the error text, each followed by the separator `"\n----\n"`, and
then the timing placeholder; the header is one line, the command line is cmd and
args joined by single spaces, the error text is empty for a nil error; there are
six separators and nothing follows the placeholder. -/
theorem mustWrite_layout (rec : recording) :
    mustWrite rec
      = jsonMarshal (header rec) ++ [10, 45, 45, 45, 45, 10]
        ++ [32].intercalate (rec.cmd :: rec.args) ++ [10, 45, 45, 45, 45, 10]
        ++ rec.stdin ++ [10, 45, 45, 45, 45, 10]
        ++ rec.stdout ++ [10, 45, 45, 45, 45, 10]
        ++ rec.stderr ++ [10, 45, 45, 45, 45, 10]
        ++ rec.err.getD [] ++ [10, 45, 45, 45, 45, 10]
        ++ str "timing JSON TODO"
    ∧ LF ∉ jsonMarshal (header rec)
    ∧ (mustWrite rec).length
        = (jsonMarshal (header rec)).length + ([32].intercalate (rec.cmd :: rec.args)).length
          + rec.stdin.length + rec.stdout.length + rec.stderr.length + (rec.err.getD []).length
          + 6 * 6 + 16
    ∧ str "timing JSON TODO" <:+ mustWrite rec := by
  have hsep : sep = [10, 45, 45, 45, 45, 10] := by decide
  have herr : errStr rec = rec.err.getD [] := by
    unfold errStr
    cases rec.err <;> rfl
  have hlay : mustWrite rec
      = jsonMarshal (header rec) ++ [10, 45, 45, 45, 45, 10]
        ++ [32].intercalate (rec.cmd :: rec.args) ++ [10, 45, 45, 45, 45, 10]
        ++ rec.stdin ++ [10, 45, 45, 45, 45, 10]
        ++ rec.stdout ++ [10, 45, 45, 45, 45, 10]
        ++ rec.stderr ++ [10, 45, 45, 45, 45, 10]
        ++ rec.err.getD [] ++ [10, 45, 45, 45, 45, 10]
        ++ str "timing JSON TODO" := by
    rw [mustWrite, cmdLine, join_eq_intercalate, hsep, herr]
    rfl
  refine ⟨hlay, LF_not_mem_jsonMarshal _, ?_, ?_⟩
  · have ht : (str "timing JSON TODO").length = 16 := by decide
    rw [hlay]
    simp only [List.length_append, ht, List.length_cons, List.length_nil]
    omega
  · rw [hlay]
    exact List.suffix_append _ _

theorem jsonMarshal_of_offsets (a b c d : Nat) (ha : a ≠ 0) (hb : b ≠ 0) (hc : c ≠ 0)
    (hd : d ≠ 0) :
    jsonMarshal ⟨1, 3, 5, (a : Int), (b : Int), (c : Int), (d : Int)⟩
      = str "\x7b\"version\":1,\"cmd\":3,\"stdin\":5,\"stdout\":" ++ natToDec a
        ++ str ",\"stderr\":" ++ natToDec b ++ str ",\"err\":" ++ natToDec c
        ++ str ",\"timing\":" ++ natToDec d ++ str "\x7d" := by
  have i1 : itoa (1 : Int) = str "1" := by decide
  have i3 : itoa (3 : Int) = str "3" := by decide
  have i5 : itoa (5 : Int) = str "5" := by decide
  have ea : ¬ ((a : Int) = 0) := by omega
  have eb : ¬ ((b : Int) = 0) := by omega
  have ec : ¬ ((c : Int) = 0) := by omega
  have ed : ¬ ((d : Int) = 0) := by omega
  have e5 : ¬ ((5 : Int) = 0) := by decide
  simp only [jsonMarshal, jsonField, jsonFieldOmitEmpty, i1, i3, i5, if_neg ea, if_neg eb,
    if_neg ec, if_neg ed, if_neg e5, itoa_of_nonneg _ (Int.natCast_nonneg _), Int.toNat_ofNat]
  simp [str, List.append_assoc]

/-- C14: the header `mustWrite` computes has Version 1, Cmd 3, Stdin 5, every later
offset is the one before plus 2 plus the number of line feeds of the text in
between, Timing is 13 plus the number of line feeds of the four texts, no offset
is 0, and the header line carries the seven keys version, cmd, stdin, stdout,
stderr, err, timing in this order. -/
theorem header_invariant (rec : recording) :
    (header rec).Version = 1 ∧ (header rec).Cmd = 3 ∧ (header rec).Stdin = 5
    ∧ (header rec).Stdout = (header rec).Stdin + 2 + count LF rec.stdin
    ∧ (header rec).Stderr = (header rec).Stdout + 2 + count LF rec.stdout
    ∧ (header rec).Err = (header rec).Stderr + 2 + count LF rec.stderr
    ∧ (header rec).Timing = (header rec).Err + 2 + count LF (rec.err.getD [])
    ∧ (header rec).Timing
        = 13 + ((count LF rec.stdin + count LF rec.stdout + count LF rec.stderr
            + count LF (rec.err.getD []) : Nat) : Int)
    ∧ (header rec).Stdin < (header rec).Stdout ∧ (header rec).Stdout < (header rec).Stderr
    ∧ (header rec).Stderr < (header rec).Err ∧ (header rec).Err < (header rec).Timing
    ∧ jsonMarshal (header rec)
        = str "\x7b\"version\":1,\"cmd\":3,\"stdin\":5,\"stdout\":"
          ++ natToDec (7 + count LF rec.stdin)
          ++ str ",\"stderr\":" ++ natToDec (9 + count LF rec.stdin + count LF rec.stdout)
          ++ str ",\"err\":"
          ++ natToDec (11 + count LF rec.stdin + count LF rec.stdout + count LF rec.stderr)
          ++ str ",\"timing\":"
          ++ natToDec (13 + count LF rec.stdin + count LF rec.stdout + count LF rec.stderr
              + count LF (rec.err.getD []))
          ++ str "\x7d" := by
  have herr : errStr rec = rec.err.getD [] := by
    unfold errStr
    cases rec.err <;> rfl
  have hV : (header rec).Version = 1 := rfl
  have hC : (header rec).Cmd = 3 := by simp [header, sepLen]
  have hI : (header rec).Stdin = 5 := by simp [header, sepLen]
  have hO : (header rec).Stdout = ((7 + count LF rec.stdin : Nat) : Int) := by
    simp [header, sepLen]; omega
  have hE : (header rec).Stderr = ((9 + count LF rec.stdin + count LF rec.stdout : Nat) : Int) := by
    simp [header, sepLen]; omega
  have hM : (header rec).Err
      = ((11 + count LF rec.stdin + count LF rec.stdout + count LF rec.stderr : Nat) : Int) := by
    simp [header, sepLen]; omega
  have hT : (header rec).Timing
      = ((13 + count LF rec.stdin + count LF rec.stdout + count LF rec.stderr
          + count LF (rec.err.getD []) : Nat) : Int) := by
    rw [← herr]; simp [header, sepLen]; omega
  refine ⟨hV, hC, hI, by rw [hO, hI]; push_cast; omega, by rw [hE, hO]; push_cast; omega,
    by rw [hM, hE]; push_cast; omega, by rw [hT, hM]; push_cast; omega,
    by rw [hT]; push_cast; omega, by rw [hO, hI]; push_cast; omega,
    by rw [hE, hO]; push_cast; omega, by rw [hM, hE]; push_cast; omega,
    by rw [hT, hM]; push_cast; omega, ?_⟩
  have hh : header rec = ⟨1, 3, 5, ((7 + count LF rec.stdin : Nat) : Int),
      ((9 + count LF rec.stdin + count LF rec.stdout : Nat) : Int),
      ((11 + count LF rec.stdin + count LF rec.stdout + count LF rec.stderr : Nat) : Int),
      ((13 + count LF rec.stdin + count LF rec.stdout + count LF rec.stderr
          + count LF (rec.err.getD []) : Nat) : Int)⟩ := by
    rw [← hO, ← hE, ← hM, ← hT, ← hV, ← hC, ← hI]
  rw [hh]
  exact jsonMarshal_of_offsets _ _ _ _ (by omega) (by omega) (by omega) (by omega)

/-! ## Playback, `slice` and argument boundaries (C12, C13, C15, C16) -/

/-- C12: when no file exists at the path of the name of stdin, cmd and args in the
directory, `RunPlayback.Run` panics on the error of `os.Open`; it returns no
stdout, stderr or error. -/
theorem playback_missing_file (e : Env) (Dir : Str) (fs : Files) (options : Option Opt)
    (stdin cmd : Str) (args : List Str)
    (h : fs (e.pathJoin Dir (filename e.tables stdin cmd args)) = none) :
    RunPlayback.Run e Dir fs options stdin cmd args = .error .file := by
  simp only [RunPlayback.Run, h]

theorem playback_missing_file_witness :
    RunPlayback.Run (evalEnv ⟨[], [], none⟩) (str "/tmp/rec") noFiles none [] (str "ls")
      [str "-a"] = .error .file :=
  playback_missing_file (evalEnv ⟨[], [], none⟩) (str "/tmp/rec") noFiles none [] (str "ls")
    [str "-a"] rfl

/-- C13: when the file at the path of the name of stdin, cmd and args has content
`F` and `mustRead` decodes `F` as `rec`, `RunPlayback.Run` returns the stdout,
stderr and err of `rec`, whatever the options and whatever cmd, args and stdin
`rec` holds. -/
theorem playback_returns_stored (e : Env) (Dir : Str) (fs : Files) (options : Option Opt)
    (stdin cmd : Str) (args : List Str) (F : Str) (rec : recording)
    (hF : fs (e.pathJoin Dir (filename e.tables stdin cmd args)) = some F)
    (hrec : mustRead e.unmarshal F = .ok rec) :
    RunPlayback.Run e Dir fs options stdin cmd args
      = .ok ⟨rec.stdout, rec.stderr, rec.err⟩ := by
  simp only [RunPlayback.Run, hF, hrec]

set_option maxRecDepth 1000000 in
theorem playback_returns_stored_witness :
    RunPlayback.Run (evalEnv ⟨[], [], none⟩) (str "/tmp/rec")
        (Function.update noFiles (str "/tmp/rec/ls-a-7ba33f5a")
          (some (mustWrite ⟨str "date", [], str "in", str "Mon\n", str "warn", some (str "boom")⟩)))
        (some ⟨str "/home", []⟩) [] (str "ls") [str "-a"]
      = .ok ⟨str "Mon\n", str "warn", some (str "boom")⟩ :=
  playback_returns_stored (evalEnv ⟨[], [], none⟩) (str "/tmp/rec") _ (some ⟨str "/home", []⟩)
    [] (str "ls") [str "-a"]
    (mustWrite ⟨str "date", [], str "in", str "Mon\n", str "warn", some (str "boom")⟩)
    ⟨str "date", [], str "in", str "Mon\n", str "warn", some (str "boom")⟩
    (by decide!) (by decide!)

theorem join_nil_eq_flatten (l : List Str) : join [] l = l.flatten := by
  induction l with
  | nil => rfl
  | cons a l ih =>
    cases l with
    | nil => simp [join]
    | cons b r => simp [join, ih]

/-- C16: two argument lists with the same concatenation give the same name. -/
theorem filename_of_same_concatenation (t : UnicodeTables) (stdin cmd : Str)
    (args1 args2 : List Str) (h : args1.flatten = args2.flatten) :
    filename t stdin cmd args1 = filename t stdin cmd args2 := by
  simp only [filename, nameHash_eq, slug, join_nil_eq_flatten, h]

theorem filename_of_same_concatenation_witness :
    filename latin1Tables [] (str "head") [str "-n", str "1"]
      = filename latin1Tables [] (str "head") [str "-n1"] :=
  filename_of_same_concatenation latin1Tables [] (str "head") [str "-n", str "1"] [str "-n1"]
    (by decide)

theorem sliceLoop_rejoin (nx : Str) (post : List Str) :
    ∀ (cur pre : List Str) (b : Str) (stop i : Int), cur ≠ [] →
      stop = pre.length + cur.length → i = pre.length →
      sliceLoop (pre ++ cur ++ nx :: post) stop cur.length i b
        = .ok (b ++ join [LF] cur ++ (if nx = [] then [LF] else [])) := by
  intro cur
  induction cur with
  | nil => intro pre b stop i h; exact absurd rfl h
  | cons l cur ih =>
    intro pre b stop i _ hstop hi
    have hl : getLine (pre ++ l :: cur ++ nx :: post) i = .ok l := by
      have : pre ++ l :: cur ++ nx :: post = pre ++ l :: (cur ++ nx :: post) := by simp
      rw [this]
      exact getLine_at _ _ _ _ hi
    have e : pre ++ l :: cur ++ nx :: post = (pre ++ [l]) ++ cur ++ nx :: post := by simp
    simp only [List.length_cons, sliceLoop, hl]
    cases cur with
    | nil =>
      have hn : getLine (pre ++ [l] ++ nx :: post) (i + 1) = .ok nx :=
        getLine_at _ _ _ _ (by simp; omega)
      have hge : ¬ (i < stop - 1) := by simp at hstop; omega
      rw [if_neg hge, hn]
      by_cases hnx : nx = []
      · simp [sliceLoop, hnx, join]
      · have hlen : nx.length ≠ 0 := fun h => hnx (List.length_eq_zero.1 h)
        simp [sliceLoop, hlen, hnx, join]
    | cons l2 cur =>
      have hlt : i < stop - 1 := by simp at hstop; omega
      have hrec := ih (pre ++ [l]) (b ++ l ++ [LF]) stop (i + 1) (by simp)
        (by simp at hstop ⊢; omega) (by simp; omega)
      rw [← e] at hrec
      rw [if_pos hlt, hrec]
      simp [join]

/-- C15: for `0 ≤ begin < end < len(lines)`, `slice` returns the lines from `begin`
to `end - 1` joined with line feeds, followed by one more line feed exactly when
line `end` is empty; for `begin ≥ end` it returns the empty string whatever the
lines are, so it indexes none of them. -/
theorem slice_rejoin :
    (∀ (lines : List Str) (start stop : Int), 0 ≤ start → start < stop →
      stop < lines.length →
      slice lines start stop
        = .ok (join [LF] ((lines.drop start.toNat).take (stop - start).toNat)
            ++ (if lines.get? stop.toNat = some [] then [LF] else [])))
    ∧ (∀ (lines : List Str) (start stop : Int), stop ≤ start → slice lines start stop = .ok []) := by
  refine ⟨?_, ?_⟩
  · intro lines start stop h0 h1 h2
    obtain ⟨a, rfl⟩ : ∃ a : Nat, start = a := ⟨start.toNat, by omega⟩
    obtain ⟨k, hk⟩ : ∃ k : Nat, stop = a + k := ⟨(stop - a).toNat, by omega⟩
    subst hk
    have hk0 : 0 < k := by omega
    have hlen : a + k < lines.length := by omega
    have hget : lines.get? (a + k) = some (lines.get ⟨a + k, hlen⟩) := List.get?_eq_get hlen
    have hsplit : lines = lines.take a ++ (lines.drop a).take k
        ++ lines.get ⟨a + k, hlen⟩ :: lines.drop (a + k + 1) := by
      have h1 : lines = lines.take a ++ lines.drop a := (List.take_append_drop a lines).symm
      have h2 : lines.drop a = (lines.drop a).take k ++ (lines.drop a).drop k :=
        (List.take_append_drop k _).symm
      have h3 : (lines.drop a).drop k = lines.get ⟨a + k, hlen⟩ :: lines.drop (a + k + 1) := by
        rw [List.drop_drop]
        exact (List.drop_eq_getElem_cons hlen)
      rw [List.append_assoc, ← h3, ← h2, ← h1]
    have htake : (lines.take a).length = a := by
      rw [List.length_take]; omega
    have hcur : ((lines.drop a).take k).length = k := by
      rw [List.length_take, List.length_drop]; omega
    have hne : (lines.drop a).take k ≠ [] := by
      intro h
      rw [h] at hcur
      simp at hcur
      omega
    have e1 : ((a : Int) + k - a).toNat = k := by omega
    have e2 : ((a : Int)).toNat = a := by omega
    have e3 : ((a : Int) + k).toNat = a + k := by omega
    have hloop := sliceLoop_rejoin (lines.get ⟨a + k, hlen⟩) (lines.drop (a + k + 1))
      ((lines.drop a).take k) (lines.take a) [] ((a : Int) + k) a hne
      (by rw [htake, hcur]) (by rw [htake])
    rw [← hsplit, hcur] at hloop
    rw [slice, e1, e2, e3, hloop, hget]
    simp
  · intro lines start stop h
    have : (stop - start).toNat = 0 := by omega
    rw [slice, this]
    rfl

theorem slice_rejoin_witness :
    slice [str "h", str "a", str "b", str ""] 1 3 = .ok (str "a\nb\n")
    ∧ slice [] 5 5 = .ok [] :=
  ⟨by
      have := slice_rejoin.1 [str "h", str "a", str "b", str ""] 1 3 (by decide) (by decide)
        (by decide)
      rw [this]
      decide,
    slice_rejoin.2 [] 5 5 (by decide)⟩

/-! ## Carriage returns (C17) -/

theorem firstLine_eq_nil_iff (s : Str) : firstLine s = [] ↔ (s = [] ∨ s.head? = some LF) := by
  cases s with
  | nil => simp [firstLine]
  | cons b s =>
    by_cases hb : b = LF
    · simp [firstLine, hb]
    · simp [firstLine, hb]

theorem dropCR_cons (b : Nat) (p : Str) (hp : p ≠ []) : dropCR (b :: p) = b :: dropCR p := by
  obtain ⟨x, xs, rfl⟩ := List.exists_cons_of_ne_nil hp
  unfold dropCR
  rw [List.getLast?_cons_cons]
  split_ifs <;> simp

theorem dropCR_singleton (b : Nat) : dropCR [b] = if b = CR then [] else [b] := by
  unfold dropCR
  by_cases hb : b = CR <;> simp [hb]

theorem dropLineCR_cons (b : Nat) (s : Str) :
    dropLineCR (b :: s)
      = if b = CR ∧ (s = [] ∨ s.head? = some LF) then dropLineCR s else b :: dropLineCR s := by
  obtain ⟨r, hr, _⟩ := split_eq_firstLine_cons s
  have hiff := firstLine_eq_nil_iff s
  have e : dropCR [] = [] := by decide
  by_cases hb : b = LF
  · have hne : ¬ (b = CR ∧ (s = [] ∨ s.head? = some LF)) := by
      rintro ⟨h, _⟩
      rw [hb] at h
      exact absurd h (by decide)
    rw [if_neg hne]
    subst hb
    have hs : split LF (LF :: s) = [] :: firstLine s :: r := by simp [split, hr]
    simp only [dropLineCR, hs, hr, List.map_cons, e, join_cons_cons]
    rfl
  · have hs : split LF (b :: s) = (b :: firstLine s) :: r := by simp [split, hb, hr]
    by_cases hp : firstLine s = []
    · by_cases hc : b = CR
      · rw [if_pos ⟨hc, hiff.1 hp⟩]
        subst hc
        simp only [dropLineCR, hs, hr, hp, List.map_cons, dropCR_singleton, if_true, e]
      · have hne : ¬ (b = CR ∧ (s = [] ∨ s.head? = some LF)) := fun h => hc h.1
        rw [if_neg hne]
        simp only [dropLineCR, hs, hr, hp, List.map_cons, dropCR_singleton, hc, if_false, e]
        cases r with
        | nil => rfl
        | cons x xs => rfl
    · have hne : ¬ (b = CR ∧ (s = [] ∨ s.head? = some LF)) := fun h => hp (hiff.2 h.2)
      rw [if_neg hne]
      simp only [dropLineCR, hs, hr, List.map_cons, dropCR_cons b _ hp]
      cases r with
      | nil => rfl
      | cons x xs => rfl

/-- What the scanner does to a text, said on the text itself: every carriage
return immediately before a line feed or at the end is gone. -/
theorem dropLineCR_eq (s : Str) : dropLineCR s = dropCRBeforeLF s := by
  induction s with
  | nil => decide
  | cons b s ih =>
    rw [dropLineCR_cons, dropCRBeforeLF, ih]

/-- Decoding below the size at which the scanner moves its buffer: a recording whose
file has at most 2064 bytes and whose cmd and args contain no space, LF or CR is
decoded with every text stripped of the carriage returns at its line ends. -/
theorem mustRead_drops_carriage_returns_of_short (unmarshal : Str → Option RecordingHeader)
    (rec : recording) (hu : unmarshal (jsonMarshal (header rec)) = some (header rec))
    (hsize : (mustWrite rec).length ≤ 2064)
    (hcmd : SP ∉ rec.cmd ∧ LF ∉ rec.cmd ∧ CR ∉ rec.cmd)
    (hargs : ∀ a ∈ rec.args, SP ∉ a ∧ LF ∉ a ∧ CR ∉ a) :
    mustRead unmarshal (mustWrite rec)
      = .ok { cmd := rec.cmd
              args := rec.args
              stdin := dropCRBeforeLF rec.stdin
              stdout := dropCRBeforeLF rec.stdout
              stderr := dropCRBeforeLF rec.stderr
              err := if dropCRBeforeLF (errStr rec) = [] then none
                     else some (dropCRBeforeLF (errStr rec)) } := by
  have hLF : LF ∉ cmdLine rec :=
    not_mem_cmdLine LF rec (by decide) hcmd.2.1 (fun a ha => (hargs a ha).2.1)
  have hCR : CR ∉ cmdLine rec :=
    not_mem_cmdLine CR rec (by decide) hcmd.2.2 (fun a ha => (hargs a ha).2.2)
  rw [mustRead_mustWrite_short unmarshal rec hu hLF hsize, dropCR_of_not_mem _ hCR, cmdLine,
    split_join SP rec.cmd rec.args hcmd.1 (fun a ha => (hargs a ha).1)]
  simp only [dropLineCR_eq]
  rfl

/-! ## The clause of `slice` on the line after the range (C18) -/

theorem sliceLoopPlain_block (post : List Str) :
    ∀ (cur pre : List Str) (b : Str) (stop i : Int), stop = pre.length + cur.length →
      i = pre.length →
      sliceLoopPlain (pre ++ cur ++ post) stop cur.length i b = .ok (b ++ join [LF] cur) := by
  intro cur
  induction cur with
  | nil => intro pre b stop i _ _; simp [sliceLoopPlain, join]
  | cons l cur ih =>
    intro pre b stop i hstop hi
    have hl : getLine (pre ++ l :: cur ++ post) i = .ok l := by
      have : pre ++ l :: cur ++ post = pre ++ l :: (cur ++ post) := by simp
      rw [this]
      exact getLine_at _ _ _ _ hi
    have e : pre ++ l :: cur ++ post = (pre ++ [l]) ++ cur ++ post := by simp
    have hrec := ih (pre ++ [l]) (b ++ l ++ [LF]) stop (i + 1)
      (by simp at hstop ⊢; omega) (by simp; omega)
    have hrec2 := ih (pre ++ [l]) (b ++ l) stop (i + 1)
      (by simp at hstop ⊢; omega) (by simp; omega)
    rw [← e] at hrec hrec2
    simp only [List.length_cons, sliceLoopPlain, hl]
    cases cur with
    | nil =>
      have hge : ¬ (i < stop - 1) := by simp at hstop; omega
      rw [if_neg hge]
      simp [sliceLoopPlain, join]
    | cons l2 cur =>
      have hlt : i < stop - 1 := by simp at hstop; omega
      rw [if_pos hlt, hrec]
      simp [join]

theorem slicePlain_block (pre cur post : List Str) (a b : Int)
    (ha : a = pre.length) (hb : b = pre.length + cur.length) :
    slicePlain (pre ++ cur ++ post) a b = .ok (join [LF] cur) := by
  have : (b - a).toNat = cur.length := by omega
  rw [slicePlain, this, sliceLoopPlain_block post cur pre [] b a hb ha]
  simp

/-- `mustReadPlain` on lines that are laid out as `mustWrite` lays them out. -/
theorem mustReadPlain_of_layout (unmarshal : Str → Option RecordingHeader) (input : Str)
    (J C : Str) (I O E M : List Str) (h : RecordingHeader)
    (hs : scanLines input = .ok (layout J C I O E M)) (hu : unmarshal J = some h)
    (hCmd : h.Cmd = 3) (hStdin : h.Stdin = 5) (hStdout : h.Stdout = 6 + I.length)
    (hStderr : h.Stderr = 7 + I.length + O.length)
    (hErr : h.Err = 8 + I.length + O.length + E.length)
    (hTiming : h.Timing = 9 + I.length + O.length + E.length + M.length)
    (hT : h.Timing < 9223372036854775808) :
    mustReadPlain unmarshal input = .ok (recordingOfLines C I O E M) := by
  have w0 : wrapInt (h.Cmd - 1) = h.Cmd - 1 := wrapInt_eq _ (by omega) (by omega)
  have w1 : wrapInt (h.Stdin - 1) = h.Stdin - 1 := wrapInt_eq _ (by omega) (by omega)
  have w2 : wrapInt (h.Stdout - 1) = h.Stdout - 1 := wrapInt_eq _ (by omega) (by omega)
  have w3 : wrapInt (h.Stderr - 1) = h.Stderr - 1 := wrapInt_eq _ (by omega) (by omega)
  have w4 : wrapInt (h.Err - 1) = h.Err - 1 := wrapInt_eq _ (by omega) (by omega)
  have v1 : wrapInt (h.Stdout - sepLen) = h.Stdout - sepLen :=
    wrapInt_eq _ (by simp only [sepLen]; omega) (by simp only [sepLen]; omega)
  have v2 : wrapInt (h.Stderr - sepLen) = h.Stderr - sepLen :=
    wrapInt_eq _ (by simp only [sepLen]; omega) (by simp only [sepLen]; omega)
  have v3 : wrapInt (h.Err - sepLen) = h.Err - sepLen :=
    wrapInt_eq _ (by simp only [sepLen]; omega) (by simp only [sepLen]; omega)
  have v4 : wrapInt (h.Timing - sepLen) = h.Timing - sepLen :=
    wrapInt_eq _ (by simp only [sepLen]; omega) (by simp only [sepLen]; omega)
  have g0 : getLine (layout J C I O E M) 0 = .ok J := by
    have : layout J C I O E M = [] ++ J :: ([dashes, C, dashes] ++ I ++ [dashes] ++ O ++ [dashes]
        ++ E ++ [dashes] ++ M ++ [dashes, timingText]) := by simp [layout]
    rw [this]; exact getLine_at _ _ _ _ (by simp)
  have g2 : getLine (layout J C I O E M) (h.Cmd - 1) = .ok C := by
    have : layout J C I O E M = [J, dashes] ++ C :: ([dashes] ++ I ++ [dashes] ++ O ++ [dashes]
        ++ E ++ [dashes] ++ M ++ [dashes, timingText]) := by simp [layout]
    rw [this]; exact getLine_at _ _ _ _ (by simp [hCmd])
  have s1 : slicePlain (layout J C I O E M) (h.Stdin - 1) (h.Stdout - sepLen)
      = .ok (join [LF] I) := by
    have : layout J C I O E M = [J, dashes, C, dashes] ++ I ++ dashes :: (O ++ [dashes]
        ++ E ++ [dashes] ++ M ++ [dashes, timingText]) := by simp [layout]
    rw [this]
    exact slicePlain_block _ _ _ _ _ (by simp [hStdin]) (by simp [hStdout, sepLen]; omega)
  have s2 : slicePlain (layout J C I O E M) (h.Stdout - 1) (h.Stderr - sepLen)
      = .ok (join [LF] O) := by
    have : layout J C I O E M = ([J, dashes, C, dashes] ++ I ++ [dashes]) ++ O ++ dashes ::
        (E ++ [dashes] ++ M ++ [dashes, timingText]) := by simp [layout]
    rw [this]
    exact slicePlain_block _ _ _ _ _ (by simp [hStdout]; omega)
      (by simp [hStderr, sepLen]; omega)
  have s3 : slicePlain (layout J C I O E M) (h.Stderr - 1) (h.Err - sepLen)
      = .ok (join [LF] E) := by
    have : layout J C I O E M = ([J, dashes, C, dashes] ++ I ++ [dashes] ++ O ++ [dashes]) ++ E
        ++ dashes :: (M ++ [dashes, timingText]) := by simp [layout]
    rw [this]
    exact slicePlain_block _ _ _ _ _ (by simp [hStderr]; omega)
      (by simp [hErr, sepLen]; omega)
  have s4 : slicePlain (layout J C I O E M) (h.Err - 1) (h.Timing - sepLen)
      = .ok (join [LF] M) := by
    have : layout J C I O E M = ([J, dashes, C, dashes] ++ I ++ [dashes] ++ O ++ [dashes] ++ E
        ++ [dashes]) ++ M ++ dashes :: [timingText] := by simp [layout]
    rw [this]
    exact slicePlain_block _ _ _ _ _ (by simp [hErr]; omega)
      (by simp [hTiming, sepLen]; omega)
  obtain ⟨p, ps, hp⟩ := split_eq_cons SP C
  simp only [mustReadPlain, hs, g0, hu, w0, w1, w2, w3, w4, v1, v2, v3, v4, g2, hp, s1, s2, s3, s4,
    recordingOfLines]
  simp

/-- The line after each of the four texts of a layout is the line of dashes. -/
theorem getLine_after_sections (J C : Str) (I O E M : List Str) :
    getLine (layout J C I O E M) (4 + I.length) = .ok dashes
    ∧ getLine (layout J C I O E M) (5 + I.length + O.length) = .ok dashes
    ∧ getLine (layout J C I O E M) (6 + I.length + O.length + E.length) = .ok dashes
    ∧ getLine (layout J C I O E M) (7 + I.length + O.length + E.length + M.length)
        = .ok dashes := by
  refine ⟨?_, ?_, ?_, ?_⟩
  · have : layout J C I O E M = ([J, dashes, C, dashes] ++ I) ++ dashes :: (O ++ [dashes]
        ++ E ++ [dashes] ++ M ++ [dashes, timingText]) := by simp [layout]
    rw [this]; exact getLine_at _ _ _ _ (by simp; omega)
  · have : layout J C I O E M = ([J, dashes, C, dashes] ++ I ++ [dashes] ++ O) ++ dashes ::
        (E ++ [dashes] ++ M ++ [dashes, timingText]) := by simp [layout]
    rw [this]; exact getLine_at _ _ _ _ (by simp; omega)
  · have : layout J C I O E M = ([J, dashes, C, dashes] ++ I ++ [dashes] ++ O ++ [dashes] ++ E)
        ++ dashes :: (M ++ [dashes, timingText]) := by simp [layout]
    rw [this]; exact getLine_at _ _ _ _ (by simp; omega)
  · have : layout J C I O E M = ([J, dashes, C, dashes] ++ I ++ [dashes] ++ O ++ [dashes] ++ E
        ++ [dashes] ++ M) ++ dashes :: [timingText] := by simp [layout]
    rw [this]; exact getLine_at _ _ _ _ (by simp; omega)

/-- Below the size at which the scanner moves its buffer the clause is inert: for a
recording whose file has at most 2064 bytes and whose command line has no line feed,
the line after each of the four sliced ranges is the line of dashes, and decoding
without the clause returns what `mustRead` returns. -/
theorem clause_inert_of_short (unmarshal : Str → Option RecordingHeader) (rec : recording)
    (hu : unmarshal (jsonMarshal (header rec)) = some (header rec))
    (hc : LF ∉ cmdLine rec) (hsize : (mustWrite rec).length ≤ 2064) :
    (∃ lines, scanLines (mustWrite rec) = .ok lines
      ∧ getLine lines ((header rec).Stdout - sepLen) = .ok dashes
      ∧ getLine lines ((header rec).Stderr - sepLen) = .ok dashes
      ∧ getLine lines ((header rec).Err - sepLen) = .ok dashes
      ∧ getLine lines ((header rec).Timing - sepLen) = .ok dashes)
    ∧ (∃ r, mustRead unmarshal (mustWrite rec) = .ok r
        ∧ mustReadPlain unmarshal (mustWrite rec) = .ok r) := by
  have hs := scanLines_mustWrite rec hc hsize
  constructor
  · refine ⟨_, hs, ?_⟩
    obtain ⟨h1, h2, h3, h4⟩ := getLine_after_sections (jsonMarshal (header rec))
      (dropCR (cmdLine rec)) ((split LF rec.stdin).map dropCR) ((split LF rec.stdout).map dropCR)
      ((split LF rec.stderr).map dropCR) ((split LF (errStr rec)).map dropCR)
    have e1 : (header rec).Stdout - sepLen
        = 4 + (((split LF rec.stdin).map dropCR).length : Int) := by
      simp [header, sepLen, length_split]; omega
    have e2 : (header rec).Stderr - sepLen
        = 5 + (((split LF rec.stdin).map dropCR).length : Int)
          + (((split LF rec.stdout).map dropCR).length : Int) := by
      simp [header, sepLen, length_split]; omega
    have e3 : (header rec).Err - sepLen
        = 6 + (((split LF rec.stdin).map dropCR).length : Int)
          + (((split LF rec.stdout).map dropCR).length : Int)
          + (((split LF rec.stderr).map dropCR).length : Int) := by
      simp [header, sepLen, length_split]; omega
    have e4 : (header rec).Timing - sepLen
        = 7 + (((split LF rec.stdin).map dropCR).length : Int)
          + (((split LF rec.stdout).map dropCR).length : Int)
          + (((split LF rec.stderr).map dropCR).length : Int)
          + (((split LF (errStr rec)).map dropCR).length : Int) := by
      simp [header, sepLen, length_split]; omega
    rw [e1, e2, e3, e4]
    exact ⟨h1, h2, h3, h4⟩
  · refine ⟨_, mustRead_of_layout unmarshal (mustWrite rec) _ _ _ _ _ _ (header rec) hs hu
      (by simp [header, sepLen]) (by simp [header, sepLen])
      (by simp [header, sepLen, length_split]; omega)
      (by simp [header, sepLen, length_split]; omega)
      (by simp [header, sepLen, length_split]; omega)
      (by simp [header, sepLen, length_split]; omega)
      (by have := header_Timing_le rec; omega), ?_⟩
    exact mustReadPlain_of_layout unmarshal (mustWrite rec) _ _ _ _ _ _ (header rec) hs hu
      (by simp [header, sepLen]) (by simp [header, sepLen])
      (by simp [header, sepLen, length_split]; omega)
      (by simp [header, sepLen, length_split]; omega)
      (by simp [header, sepLen, length_split]; omega)
      (by simp [header, sepLen, length_split]; omega)
      (by have := header_Timing_le rec; omega)

/-! ## Carriage returns and the clause of `slice`, evaluated (C17, C18) -/

set_option maxRecDepth 1000000 in
theorem carriage_returns_dropped_in_short_recordings :
    mustRead refUnmarshal (mustWrite ⟨str "cat", [str "dos.txt"], [], str "a\r\n", str "a\r", none⟩)
      = .ok ⟨str "cat", [str "dos.txt"], [], str "a\n", str "a", none⟩
    ∧ dropCRBeforeLF (str "a\r\r\nb\rc\r") = str "a\r\nb\rc" := by
  decide!

set_option maxRecDepth 1000000 in
/-- C17 (fails on the code): for the recording of `cat dos.txt` whose stdout is the
line `first`, a line of 2000 bytes `o` and a last line `end`, each closed by CR LF,
written as a file of 2152 bytes, `mustRead` returns no text at all, with or without
carriage returns: it panics on the header line. -/
theorem carriage_returns_not_decoded_on_2000_bytes_of_stdout :
    (mustWrite ⟨str "cat", [str "dos.txt"], [],
        str "first\r\n" ++ List.replicate 2000 111 ++ str "\r\nend\r\n", [], none⟩).length = 2152
    ∧ mustRead refUnmarshal (mustWrite ⟨str "cat", [str "dos.txt"], [],
        str "first\r\n" ++ List.replicate 2000 111 ++ str "\r\nend\r\n", [], none⟩)
      = .error .json := by
  decide!

set_option maxRecDepth 1000000 in
theorem clause_inert_in_short_recordings :
    mustRead refUnmarshal (mustWrite ⟨str "ls", [str "-a"], [], str "a\nb\n", [], none⟩)
      = .ok ⟨str "ls", [str "-a"], [], str "a\nb\n", [], none⟩
    ∧ mustReadPlain refUnmarshal (mustWrite ⟨str "ls", [str "-a"], [], str "a\nb\n", [], none⟩)
      = .ok ⟨str "ls", [str "-a"], [], str "a\nb\n", [], none⟩ := by
  decide!

set_option maxRecDepth 1000000 in
/-- C18 (fails on the code): for the recording of `c` with 3991 bytes of stdout and an
error message made of a header-like line and the line `x`, written as a file of 4195
bytes, the line after the sliced stdin range is empty, `mustRead` returns the stdin
`x` with a line feed appended by the clause, and decoding without the clause returns
another recording, with stdin `x`. -/
theorem clause_appends_line_feed_on_written_recording :
    (mustWrite recordingWithHeaderLikeMessage).length = 4195
    ∧ (scanLines (mustWrite recordingWithHeaderLikeMessage)).map (fun l => getLine l 12)
      = .ok (.ok [])
    ∧ mustRead refUnmarshal (mustWrite recordingWithHeaderLikeMessage)
      = .ok ⟨headerLikeLine, [], str "x\n", [], [], none⟩
    ∧ mustReadPlain refUnmarshal (mustWrite recordingWithHeaderLikeMessage)
      = .ok ⟨headerLikeLine, [], str "x", [], [], none⟩ := by
  decide!

end Exe
